import Mathlib

/-!
Verification of the xz_ctrl motion-script front-end and transport layer.

The Python sources (src/validator.py, src/app.py, src/arduino_serial.py) are
shallowly embedded here:
* Python `str` values are modelled as `List Char` (`PyStr`); the handful of
  string primitives the code uses (`strip`, `split`, `lower`, `startswith`,
  `isdigit`, `lstrip`) are re-implemented below with Python semantics.
* Python floats are modelled as rationals (`ℚ`).  Every numeric literal the
  scripts feed into the code is an exact decimal, where binary floating point
  and rational arithmetic agree; `float(...)` string parsing is modelled for
  plain decimal literals (optional sign, digits, optional fraction), which is
  the entire grammar the validator admits.  Exponent/inf/nan forms of Python
  `float` are not modelled.
* Fallible parses return `Option`.
-/

set_option maxHeartbeats 1000000
set_option maxRecDepth 4096

-- Batteries marks the `Rat` field operations `@[irreducible]`, which blocks
-- elaborator-side evaluation (`decide`) of the fully concrete runs below.
-- The kernel itself ignores reducibility, so restoring the default status is
-- sound; it only lets `decide` see through rational arithmetic.
set_option allowUnsafeReducibility true

attribute [local semireducible] Rat.add Rat.mul Rat.sub Rat.neg Rat.inv Rat.div Rat.ofScientific

abbrev PyStr := List Char

/-- The whitespace set of Python `str.split()` / `str.strip()`. -/
def pyIsSpace (c : Char) : Bool :=
  c = ' ' || c = '\t' || c = '\n' || c = '\r' || c = '\x0b' || c = '\x0c'

/-- Python `str.strip()`: drop whitespace from both ends. -/
def pyStrip (s : PyStr) : PyStr :=
  ((s.dropWhile pyIsSpace).reverse.dropWhile pyIsSpace).reverse

/-- Python `str.lower()` (ASCII; the scripts are ASCII). -/
def pyLower (s : PyStr) : PyStr :=
  s.map Char.toLower

/-- Python `s.startswith('#')` on an already stripped line. -/
def startsWithHash (s : PyStr) : Bool :=
  match s with
  | c :: _ => c = '#'
  | [] => false

/-- Accumulator for `pyWords`: `cur` holds the current word reversed. -/
def pyWordsAux (cur : PyStr) : PyStr → List PyStr
  | [] => if cur.isEmpty then [] else [cur.reverse]
  | c :: cs =>
    if pyIsSpace c then
      if cur.isEmpty then pyWordsAux [] cs else cur.reverse :: pyWordsAux [] cs
    else pyWordsAux (c :: cur) cs

/-- Python `str.split()` with no arguments: split on whitespace runs,
no empty words. -/
def pyWords (s : PyStr) : List PyStr :=
  pyWordsAux [] s

/-- Python `str.isdigit()` (ASCII digits). -/
def pyIsDigit (s : PyStr) : Bool :=
  !s.isEmpty && s.all Char.isDigit

/-- Value of an all-digit string, as used by Python `int(...)` on the
output of `isdigit`-checked strings. -/
def digitsToNat (s : PyStr) : Nat :=
  s.foldl (fun n c => 10 * n + (c.toNat - 48)) 0

/-- Python `int(...)` on a sign-plus-digits literal.  Surrounding whitespace
and digit-group underscores are not modelled (the code only feeds it
whitespace-split tokens). -/
def parseInt? (s : PyStr) : Option ℤ :=
  match s with
  | '+' :: rest => if pyIsDigit rest then some (digitsToNat rest : ℤ) else none
  | '-' :: rest => if pyIsDigit rest then some (-(digitsToNat rest : ℤ)) else none
  | _ => if pyIsDigit s then some (digitsToNat s : ℤ) else none

/-- Unsigned part of Python `float(...)` on a plain decimal literal:
`digits`, `digits.digits`, `digits.`, or `.digits`. -/
def parseUD? (cs : PyStr) : Option ℚ :=
  let ip := cs.takeWhile Char.isDigit
  let rest := cs.dropWhile Char.isDigit
  match rest with
  | [] => if ip.isEmpty then none else some (digitsToNat ip : ℚ)
  | '.' :: fp =>
    if fp.all Char.isDigit && (!ip.isEmpty || !fp.isEmpty) then
      some ((digitsToNat ip : ℚ) + (digitsToNat fp : ℚ) / (10 : ℚ) ^ fp.length)
    else none
  | _ => none

/-- Python `float(...)` on a plain decimal literal with optional sign.
Returns `none` where Python raises `ValueError` (and also on the
exponent/inf/nan forms, which are outside the validated script grammar). -/
def parseFloat? (s : PyStr) : Option ℚ :=
  match s with
  | '+' :: cs => parseUD? cs
  | '-' :: cs => (parseUD? cs).map (fun q => -q)
  | cs => parseUD? cs

/-- Python `enumerate(lines, start=n)`. -/
def enum1 (n : Nat) : List α → List (Nat × α)
  | [] => []
  | a :: l => (n, a) :: enum1 (n + 1) l

/-- Python `text.split('\n')` (empties kept). -/
def pySplitNL (s : PyStr) : List PyStr :=
  List.splitOn '\n' s

/-- Python `text.splitlines()` restricted to `'\n'` separators: like
`split('\n')` but without a trailing empty segment. -/
def pySplitlines (s : PyStr) : List PyStr :=
  let parts := List.splitOn '\n' s
  match parts.getLast? with
  | some [] => parts.dropLast
  | _ => parts

/-- Python `repr` of a float whose value is an exact decimal fraction:
`"10.0"`, `"2.5"`, ... .  For values that are not exact decimal fractions
(never produced by validated scripts) the fallback renders the rational
numerator/denominator; Python's shortest-roundtrip repr of inexact binary
floats is not modelled. -/
def pyReprQ (q : ℚ) : String :=
  if q.den = 1 then toString q.num ++ ".0"
  else
    let k := (List.range 30).findIdx (fun k => (q * (10 : ℚ) ^ (k + 1)).den == 1) + 1
    let n := (q * (10 : ℚ) ^ k).num
    if (q * (10 : ℚ) ^ k).den = 1 then
      let m := n.natAbs
      let frac := toString (m % 10 ^ k)
      let pad := String.mk (List.replicate (k - frac.length) '0')
      (if n < 0 then "-" else "") ++ toString (m / 10 ^ k) ++ "." ++ pad ++ frac
    else toString q.num ++ "/" ++ toString q.den

/-- Python `f"{x:.1f}"`: the value rounded to one decimal place.  The
arguments it is applied to in this program are exact multiples of `1/10`
(validated move distances), where no rounding occurs; the tie behaviour of
binary-float formatting on other values is not modelled. -/
def fmt1 (q : ℚ) : String :=
  let n : ℤ := round (q * 10)
  (if n < 0 then "-" else "") ++ toString (n.natAbs / 10) ++ "." ++ toString (n.natAbs % 10)

/-! ## src/app.py — `App._check_z_soft_limit` (the soft-limit gate)

The gate walks the flattened command list, simulating the Z axis from the
persisted `self.z_position`.  The model returns the `(ok, message)` pair
together with the value of `self.z_position` after the call (the source
mutates the field; rejection returns before the mutation). -/

structure ZCheck where
  ok : Bool
  msg : String
  z_position : ℚ
deriving DecidableEq, Repr

/-- `len(parts) == 2 and parts[1].lower() == 'z'` for `parts = cmd :: args`. -/
def argIsZ (args : List PyStr) : Bool :=
  match args with
  | [a] => pyLower a = ['z']
  | _ => false

/-- `len(parts) == 3 and parts[1].lower() == 'z'` for `parts = cmd :: args`. -/
def moveArgIsZ (args : List PyStr) : Bool :=
  match args with
  | [a, _] => pyLower a = ['z']
  | _ => false

/-- `float(parts[2])` for `parts = cmd :: args` of a 3-token move. -/
def moveDelta? (args : List PyStr) : Option ℚ :=
  match args with
  | [_, d] => parseFloat? d
  | _ => none

/-- `Z_BUFFER = 2.0  # mm tolerance to match firmware` (app.py). -/
def Z_BUFFER : ℚ := 2

/-- The rejection message of `_check_z_soft_limit`
(`f"Command #{idx} would move Z beyond buffer (to {z+dz:.1f}, limit {Z_BUFFER})..."`;
`Z_BUFFER` is the float `2.0`, whose repr is `"2.0"`). -/
def zLimitMsg (idx : Nat) (wouldBe : ℚ) : String :=
  "Command #" ++ toString idx ++ " would move Z beyond buffer (to " ++ fmt1 wouldBe ++
    ", limit 2.0). Use \x27zero z\x27 at contact point or reduce the move."

/-- The `for idx, s in enumerate(cmds, start=1)` loop of `_check_z_soft_limit`.
State: current simulated `z`, the `will_zero` flag, `z_after_last_zero`, and
the persisted `self.z_position` (`zPos`), which is returned unchanged on the
rejection path and updated on the accepting path exactly as in the source. -/
def zLoop : List PyStr → Nat → ℚ → Bool → ℚ → ℚ → ZCheck
  | [], _, z, willZero, zAfterLastZero, _ =>
    -- end of loop: `self.z_position = z` if no zero was seen, else
    -- `self.z_position = z_after_last_zero`; then `return True, "OK"`
    if willZero then ⟨true, "OK", zAfterLastZero⟩ else ⟨true, "OK", z⟩
  | s :: rest, idx, z, willZero, zAfterLastZero, zPos =>
    match pyWords s with
    | [] => zLoop rest (idx + 1) z willZero zAfterLastZero zPos
    | w :: args =>
      let cmd := pyLower w
      if cmd = ("zero").data && argIsZ args then
        zLoop rest (idx + 1) 0 true 0 zPos
      else if cmd = ("move").data && moveArgIsZ args then
        match moveDelta? args with
        | none => zLoop rest (idx + 1) z willZero zAfterLastZero zPos
        | some dz =>
          if z + dz > Z_BUFFER then ⟨false, zLimitMsg idx (z + dz), zPos⟩
          else zLoop rest (idx + 1) (z + dz) willZero
            (if willZero then z + dz else zAfterLastZero) zPos
      else zLoop rest (idx + 1) z willZero zAfterLastZero zPos

/-- `App._check_z_soft_limit(self, cmds)`, with the persisted
`self.z_position` passed explicitly. -/
def check_z_soft_limit (z_position : ℚ) (cmds : List PyStr) : ZCheck :=
  zLoop cmds 1 z_position false 0 z_position

/-! ## src/validator.py -/

/-- `ValidationError` (validator.py): line number (1-based) and message. -/
structure VErr where
  line_num : Nat
  message : String
deriving DecidableEq, Repr

/-- `validate_move_command(parts, line_num)` (validator.py). -/
def validate_move_command (parts : List PyStr) (line_num : Nat) : Option VErr :=
  match parts with
  | [_, p1, p2] =>
    let axis := pyLower p1
    if axis ≠ ['x'] ∧ axis ≠ ['z'] then
      some ⟨line_num, "Invalid axis \x27" ++ String.mk p1 ++ "\x27, must be \x27x\x27 or \x27z\x27"⟩
    else
      match parseFloat? p2 with
      | none => some ⟨line_num, "Invalid distance \x27" ++ String.mk p2 ++ "\x27, must be a number"⟩
      | some _ =>
        -- `distance_str = parts[2].lstrip('-+')`
        let distance_str := p2.dropWhile (fun c => c = '-' || c = '+')
        if '.' ∈ distance_str then
          let decimal_part := (List.splitOn '.' distance_str).getD 1 []
          if decimal_part.length > 1 then
            some ⟨line_num, "Distance \x27" ++ String.mk p2 ++
              "\x27 has too many decimal places (max 1 allowed, e.g., 1.5)"⟩
          else none
        else none
  | other =>
    some ⟨line_num, "move requires 2 parameters (axis, distance), got " ++ toString (other.length - 1)⟩

/-- `validate_speed_command(parts, line_num)` (validator.py). -/
def validate_speed_command (parts : List PyStr) (line_num : Nat) : Option VErr :=
  match parts with
  | [_, p1, p2] =>
    let axis := pyLower p1
    if axis ≠ ['x'] ∧ axis ≠ ['z'] then
      some ⟨line_num, "Invalid axis \x27" ++ String.mk p1 ++ "\x27, must be \x27x\x27 or \x27z\x27"⟩
    else
      match parseFloat? p2 with
      | none => some ⟨line_num, "Invalid speed \x27" ++ String.mk p2 ++ "\x27, must be a number"⟩
      | some speed =>
        if speed ≤ 0 then some ⟨line_num, "Speed must be positive, got " ++ pyReprQ speed⟩
        else none
  | other =>
    some ⟨line_num, "speed requires 2 parameters (axis, speed), got " ++ toString (other.length - 1)⟩

/-- `validate_loop_command(parts, line_num)` (validator.py). -/
def validate_loop_command (parts : List PyStr) (line_num : Nat) : Option VErr :=
  match parts with
  | [_, p1] =>
    match parseInt? p1 with
    | none => some ⟨line_num, "Invalid iterations \x27" ++ String.mk p1 ++ "\x27, must be an integer"⟩
    | some iterations =>
      if iterations ≤ 0 then
        some ⟨line_num, "Iterations must be positive, got " ++ toString iterations⟩
      else none
  | other =>
    some ⟨line_num, "loop requires 1 parameter (iterations), got " ++ toString (other.length - 1)⟩

/-- `validate_endloop_command(parts, line_num)` (validator.py). -/
def validate_endloop_command (parts : List PyStr) (line_num : Nat) : Option VErr :=
  match parts with
  | [_] => none
  | other =>
    some ⟨line_num, "endloop takes no parameters, got " ++ toString (other.length - 1)⟩

/-- `validate_pulse_command(parts, line_num)` (validator.py). -/
def validate_pulse_command (parts : List PyStr) (line_num : Nat) : Option VErr :=
  match parts with
  | [_, p1] =>
    match parseInt? p1 with
    | none => some ⟨line_num, "Invalid milliseconds \x27" ++ String.mk p1 ++ "\x27, must be an integer"⟩
    | some milliseconds =>
      if milliseconds < 0 then
        some ⟨line_num, "Pulse time cannot be negative, got " ++ toString milliseconds⟩
      else if milliseconds > 5000 then
        some ⟨line_num, "Pulse time too long (max 5000ms), got " ++ toString milliseconds⟩
      else none
  | other =>
    some ⟨line_num, "pulse requires 1 parameter (milliseconds), got " ++ toString (other.length - 1)⟩

/-- `validate_wait_command(parts, line_num)` (validator.py). -/
def validate_wait_command (parts : List PyStr) (line_num : Nat) : Option VErr :=
  match parts with
  | [_, p1] =>
    match parseInt? p1 with
    | none => some ⟨line_num, "Invalid milliseconds \x27" ++ String.mk p1 ++ "\x27, must be an integer"⟩
    | some milliseconds =>
      if milliseconds < 0 then
        some ⟨line_num, "Wait time cannot be negative, got " ++ toString milliseconds⟩
      else none
  | other =>
    some ⟨line_num, "wait requires 1 parameter (milliseconds), got " ++ toString (other.length - 1)⟩

/-- `validate_line(line, line_num)` (validator.py). -/
def validate_line (line : PyStr) (line_num : Nat) : Option VErr :=
  let stripped := pyStrip line
  if stripped.isEmpty || startsWithHash stripped then none
  else
    let parts := pyWords stripped
    match parts with
    | [] => none
    | w :: _ =>
      let cmd := pyLower w
      if cmd = ("move").data then validate_move_command parts line_num
      else if cmd = ("speed").data then validate_speed_command parts line_num
      else if cmd = ("loop").data then validate_loop_command parts line_num
      else if cmd = ("endloop").data then validate_endloop_command parts line_num
      else if cmd = ("wait").data then validate_wait_command parts line_num
      else if cmd = ("pulse").data then validate_pulse_command parts line_num
      else if cmd = ("zero").data then
        match parts with
        | [_, p1] =>
          if pyLower p1 ≠ ['z'] then
            some ⟨line_num, "zero currently only supports axis \x27z\x27"⟩
          else none
        | other =>
          some ⟨line_num, "zero requires 1 parameter (axis), got " ++ toString (other.length - 1)⟩
      else some ⟨line_num, "Unknown command \x27" ++ String.mk cmd ++ "\x27"⟩

/-- The scan loop of `validate_loop_matching` (validator.py).  Python pushes
and pops at the tail of `loop_stack` and finally iterates the remaining
entries bottom-up; we keep the top of the stack at the head and reverse for
the final report, which yields the identical error list. -/
def loopMatchGo (loop_stack : List Nat) : List (Nat × PyStr) → List VErr
  | [] => loop_stack.reverse.map (fun n => ⟨n, "loop without matching endloop"⟩)
  | p :: rest =>
    let stripped := pyStrip p.2
    if stripped.isEmpty || startsWithHash stripped then loopMatchGo loop_stack rest
    else
      match pyWords stripped with
      | [] => loopMatchGo loop_stack rest
      | w :: _ =>
        let cmd := pyLower w
        if cmd = ("loop").data then loopMatchGo (p.1 :: loop_stack) rest
        else if cmd = ("endloop").data then
          match loop_stack with
          | [] => ⟨p.1, "endloop without matching loop"⟩ :: loopMatchGo [] rest
          | _ :: stack2 => loopMatchGo stack2 rest
        else loopMatchGo loop_stack rest

/-- `validate_loop_matching(lines)` (validator.py). -/
def validate_loop_matching (lines : List PyStr) : List VErr :=
  loopMatchGo [] (enum1 1 lines)

/-- First pass of `validate_script`: per-line validation over
`enumerate(lines, start=1)`. -/
def perLineErrors (lines : List PyStr) : List VErr :=
  (enum1 1 lines).filterMap (fun p => validate_line p.2 p.1)

/-- `cmd == 'loop' and len(parts) == 2 and parts[1].isdigit()` (argument part). -/
def loopArgDigit (ws : List PyStr) : Bool :=
  match ws with
  | [a] => pyIsDigit a
  | _ => false

/-- `int(parts[1])` for a digit-checked single loop argument. -/
def loopArgVal (ws : List PyStr) : Nat :=
  match ws with
  | [a] => digitsToNat a
  | _ => 0

/-- One line of the naive loop-expansion pass inside `validate_script`
(validator.py): state is `(loop_bodies, expanded)`; the innermost open loop
is at the head of `loop_bodies` (Python keeps it at the tail). -/
def zExpandStep (st : List (Nat × List (Nat × PyStr)) × List (Nat × PyStr)) (p : Nat × PyStr) :
    List (Nat × List (Nat × PyStr)) × List (Nat × PyStr) :=
  let s := pyStrip p.2
  if s.isEmpty || startsWithHash s then st
  else
    match pyWords s with
    | [] => st
    | w :: ws =>
      let cmd := pyLower w
      if cmd = ("loop").data ∧ loopArgDigit ws then ((loopArgVal ws, []) :: st.1, st.2)
      else if cmd = ("endloop").data then
        match st.1 with
        | [] => st
        | (rep, body) :: rest =>
          let body_rep := List.flatten (List.replicate rep body)
          match rest with
          | (r2, b2) :: rest2 => ((r2, b2 ++ body_rep) :: rest2, st.2)
          | [] => ([], st.2 ++ body_rep)
      else
        match st.1 with
        | (r, b) :: rest => ((r, b ++ [(p.1, s)]) :: rest, st.2)
        | [] => ([], st.2 ++ [(p.1, s)])

/-- The `expanded` list built by `validate_script`'s naive loop expansion
(unclosed loop bodies are discarded, as in the source). -/
def zExpand (lines : List PyStr) : List (Nat × PyStr) :=
  ((enum1 1 lines).foldl zExpandStep ([], [])).2

/-- One step of `validate_script`'s Z-position evolution check: state is
`(z_pos, errors)`.  On a violation the error is appended and `z_pos` is NOT
advanced (the source updates it only in the `else` branch). -/
def zCheckStep (st : ℚ × List VErr) (p : Nat × PyStr) : ℚ × List VErr :=
  match pyWords p.2 with
  | [] => st
  | w :: ws =>
    let cmd := pyLower w
    if cmd = ("zero").data ∧ argIsZ ws then (0, st.2)
    else if cmd = ("move").data ∧ moveArgIsZ ws then
      match moveDelta? ws with
      | none => st
      | some delta =>
        let new_z := st.1 + delta
        if new_z > 2 then
          (st.1, st.2 ++ [⟨p.1, "Z soft-limit violation: move would reach " ++ pyReprQ new_z ++
            " (> 2). Use smaller move or zero z earlier."⟩])
        else (new_z, st.2)
    else st

/-- The soft-limit errors of `validate_script`'s second pass, simulated from
`z_pos = 0` (the validator has no access to the session's persisted state). -/
def zSimErrors (lines : List PyStr) : List VErr :=
  ((zExpand lines).foldl zCheckStep (0, [])).2

/-- Sort key used by `errors.sort(key=lambda e: e.line_num)`. -/
def errLe (a b : VErr) : Prop :=
  a.line_num ≤ b.line_num

instance : DecidableRel errLe :=
  fun a b => Nat.decLe a.line_num b.line_num

instance : IsTotal VErr errLe :=
  ⟨fun a b => Nat.le_total a.line_num b.line_num⟩

instance : IsTrans VErr errLe :=
  ⟨fun _ _ _ => Nat.le_trans⟩

/-- `validate_script(text)` (validator.py): per-line errors, then loop
matching, then the Z-simulation pass, finally a stable sort by line number
(Python `list.sort` is stable; so is insertion sort with `≤` on the key). -/
def validate_script (text : PyStr) : List VErr :=
  let lines := pySplitNL text
  List.insertionSort errLe
    (perLineErrors lines ++ validate_loop_matching lines ++ zSimErrors lines)

/-! ## src/app.py — `App.convert_to_arduino_commands` (loop expander) -/

/-- The allow-list of `push_line`:
`("move", "speed", "wait", "pulse", "zero", "report")`. -/
def allowedCmds : List PyStr :=
  [("move").data, ("speed").data, ("wait").data, ("pulse").data, ("zero").data, ("report").data]

/-- `push_line(target_list, line)` (app.py): strip, drop blanks/comments,
append only allow-listed commands. -/
def push_line (target_list : List PyStr) (line : PyStr) : List PyStr :=
  let s := pyStrip line
  if s.isEmpty || startsWithHash s then target_list
  else
    match pyWords s with
    | [] => target_list
    | w :: _ =>
      if pyLower w ∈ allowedCmds then target_list ++ [s] else target_list

/-- How the main loop of `convert_to_arduino_commands` dispatches on a raw
line: skipped, a valid `loop N` header, an `endloop`, or a normal command
line (carried in stripped form). -/
inductive LineClass where
  | skip
  | loopHeader (n : Nat)
  | endloopTok
  | normal (line : PyStr)
deriving DecidableEq, Repr

/-- The dispatch conditions of `convert_to_arduino_commands`' main loop
(app.py): strip and drop blanks/comments; `loop` with a single digit-string
argument opens a frame; `endloop` closes one; everything else is a normal
line. -/
def classify (raw : PyStr) : LineClass :=
  let line := pyStrip raw
  if line.isEmpty || startsWithHash line then .skip
  else
    match pyWords line with
    | [] => .skip
    | w :: ws =>
      let cmd := pyLower w
      if cmd = ("loop").data ∧ loopArgDigit ws then .loopHeader (loopArgVal ws)
      else if cmd = ("endloop").data then .endloopTok
      else .normal line

/-- One iteration of `convert_to_arduino_commands`' `for raw in lines` loop
(app.py).  State: the open-frame stack (innermost frame at the head; Python
keeps it at the tail) and the output list `out`.  `body * count` is
`flatten (replicate count body)`; an unmatched `endloop` is ignored. -/
def convertStep (st : List (Nat × List PyStr) × List PyStr) (raw : PyStr) :
    List (Nat × List PyStr) × List PyStr :=
  match classify raw with
  | .skip => st
  | .loopHeader n => ((n, []) :: st.1, st.2)
  | .endloopTok =>
    match st.1 with
    | [] => st
    | (count, body) :: stack2 =>
      let expanded := List.flatten (List.replicate count body)
      match stack2 with
      | (c2, b2) :: rest2 => ((c2, b2 ++ expanded) :: rest2, st.2)
      | [] => ([], st.2 ++ expanded)
  | .normal line =>
    match st.1 with
    | (c, b) :: rest => ((c, push_line b line) :: rest, st.2)
    | [] => ([], push_line st.2 line)

/-- `App.convert_to_arduino_commands(self, lines)` (app.py): run the loop
over all lines and return `out` (bodies of unclosed loops are discarded,
as in the source). -/
def convert_to_arduino_commands (lines : List PyStr) : List PyStr :=
  (lines.foldl convertStep ([], [])).2

/-! ## src/app.py — `App.send_to_arduino` -/

/-- Outcome of one `send_to_arduino` invocation: which exit path was taken
and (for the final path) the command list handed to
`ArduinoController.send_script`. -/
inductive SendOutcome where
  | notConnected
  | validationFailed (errors : List VErr)
  | softLimitFailed (msg : String)
  | nothingToSend
  | invoked (cmds : List PyStr)
deriving DecidableEq, Repr

/-- `App.send_to_arduino(self)` (app.py), with the editor text, connection
flag and persisted `self.z_position` passed explicitly; returns the exit
path taken and the value of `self.z_position` after the call.  The source
validates the raw text, converts `text.splitlines()`, runs the soft-limit
gate (which updates `self.z_position` on its accepting path), then checks
for an empty command list, then invokes the transport. -/
def send_to_arduino (is_connected : Bool) (z_position : ℚ) (text : PyStr) :
    SendOutcome × ℚ :=
  if !is_connected then (.notConnected, z_position)
  else
    let errors := validate_script text
    if errors ≠ [] then (.validationFailed errors, z_position)
    else
      let cmds := convert_to_arduino_commands (pySplitlines text)
      let r := check_z_soft_limit z_position cmds
      if r.ok = false then (.softLimitFailed r.msg, r.z_position)
      else if cmds = [] then (.nothingToSend, r.z_position)
      else (.invoked cmds, r.z_position)

/-! ## src/arduino_serial.py — `ArduinoController.send_script` flow control

`send_script` streams commands under a sliding window: an iteration of its
loop sends the next command (incrementing only its local index `idx`) when
`outstanding = self._queued_reports - self._dequeued_reports < window`
(`window = 32`), and otherwise waits on the condition variable (with a
bounded timeout, after which it re-checks).  `send_script` itself never
touches the counters: `_queued_reports` is incremented only by the
background `_read_loop` when a `[queued]` line is actually received, and
`_dequeued_reports` when a `[dequeued]` line is received — so the guard
bounds echoes-received minus dequeues, not commands-sent minus dequeues.
The interleaving of the send loop with the reader is modelled as a
transition system whose events are: a send-loop iteration, receipt of a
`[queued]` line, receipt of a `[dequeued]` line, and a timeout re-check. -/

/-- `window = 32  # number of outstanding commands to allow (safe for UNO)`. -/
def windowSize : Nat := 32

/-- Counters of `ArduinoController` plus the send loop's index `idx`. -/
structure FlowState where
  queued_reports : Nat
  dequeued_reports : Nat
  idx : Nat
deriving DecidableEq, Repr

/-- Events interleaving with the send loop: a send-loop iteration; the
background `_read_loop` receiving a `[queued]` line; the `_read_loop`
receiving a `[dequeued]` line; a timeout-driven re-check of the wait
condition (which changes no counter). -/
inductive FlowEvent where
  | sendCmd
  | recvQueued
  | recvDequeued
  | timeoutTick
deriving DecidableEq, Repr

/-- One transition.  A send-loop iteration transmits (incrementing `idx`
only — `send_script` does not update the counters) exactly when commands
remain and `outstanding < window` (the guard of `send_script`'s loop
body); otherwise the loop blocks and the state is unchanged.  The two
receive events are `_read_loop`'s counter increments. -/
def flowStep (total : Nat) (s : FlowState) (e : FlowEvent) : FlowState :=
  match e with
  | .sendCmd =>
    if s.idx < total ∧ s.queued_reports - s.dequeued_reports < windowSize then
      ⟨s.queued_reports, s.dequeued_reports, s.idx + 1⟩
    else s
  | .recvQueued => ⟨s.queued_reports + 1, s.dequeued_reports, s.idx⟩
  | .recvDequeued => ⟨s.queued_reports, s.dequeued_reports + 1, s.idx⟩
  | .timeoutTick => s

/-- Run of `send_script` for a `total`-command script against an event
interleaving, from fresh counters. -/
def flowRun (total : Nat) (evs : List FlowEvent) : FlowState :=
  evs.foldl (flowStep total) ⟨0, 0, 0⟩

/-! ## src/arduino_serial.py — `ArduinoController.emergency_stop` -/

/-- Connection state of `ArduinoController` as seen by `emergency_stop`:
the connected flag and the two window-accounting counters (which
`emergency_stop` never reads). -/
structure ControllerState where
  is_connected : Bool
  queued_reports : Nat
  dequeued_reports : Nat
deriving DecidableEq, Repr

/-- `ArduinoController.emergency_stop(self)` (arduino_serial.py).
`writeOk` models whether `self.ser.write(b'!')` raises (`errText` is the
exception text); the second component is the byte sequence written to the
connection during the call. -/
def emergency_stop (c : ControllerState) (writeOk : Bool) (errText : String) :
    (Bool × String) × List Char :=
  if !c.is_connected then ((false, "Not connected"), [])
  else if writeOk then ((true, "Emergency stop sent"), ['!'])
  else ((false, "Stop failed: " ++ errText), [])

/-! ## Helper definitions for the gate theorems -/

/-- Whether a command line is a `zero z` command in the sense of the gate's
dispatch (`cmd == 'zero' and len(parts) == 2 and parts[1].lower() == 'z'`). -/
def isZeroTok (s : PyStr) : Bool :=
  match pyWords s with
  | [w, a] => pyLower w = ("zero").data && pyLower a = ['z']
  | _ => false

/-- Sum of the parsed deltas of the `move z` commands of a flattened list
(the displacement the gate accumulates when every move commits). -/
def zDeltaSum : List PyStr → ℚ
  | [] => 0
  | s :: rest =>
    match pyWords s with
    | w :: args =>
      if pyLower w = ("move").data && moveArgIsZ args then
        match moveDelta? args with
        | some d => d + zDeltaSum rest
        | none => zDeltaSum rest
      else zDeltaSum rest
    | [] => zDeltaSum rest

/-! ## C6 machinery: the loop/endloop token stream of `validate_loop_matching` -/

/-- The token `validate_loop_matching` extracts from one enumerated line:
`(line, true)` for a `loop` line, `(line, false)` for an `endloop` line,
nothing otherwise. -/
def lmToken (p : Nat × PyStr) : Option (Nat × Bool) :=
  let s := pyStrip p.2
  if s.isEmpty || startsWithHash s then none
  else
    match pyWords s with
    | [] => none
    | w :: _ =>
      let cmd := pyLower w
      if cmd = ("loop").data then some (p.1, true)
      else if cmd = ("endloop").data then some (p.1, false)
      else none

/-- The loop/endloop token stream of a script. -/
def lmTokens (lines : List PyStr) : List (Nat × Bool) :=
  (enum1 1 lines).filterMap lmToken

/-- The stack automaton of `validate_loop_matching` on the token stream. -/
def matchRun (stack : List Nat) : List (Nat × Bool) → List VErr
  | [] => stack.reverse.map (fun ln => ⟨ln, "loop without matching endloop"⟩)
  | (ln, true) :: rest => matchRun (ln :: stack) rest
  | (ln, false) :: rest =>
    match stack with
    | [] => ⟨ln, "endloop without matching loop"⟩ :: matchRun [] rest
    | _ :: stack2 => matchRun stack2 rest

/-- Only the scan-phase errors of `matchRun` (unmatched `endloop`s). -/
def scanErrors (stack : List Nat) : List (Nat × Bool) → List VErr
  | [] => []
  | (ln, true) :: rest => scanErrors (ln :: stack) rest
  | (ln, false) :: rest =>
    match stack with
    | [] => ⟨ln, "endloop without matching loop"⟩ :: scanErrors [] rest
    | _ :: stack2 => scanErrors stack2 rest

/-- The stack left after running the automaton over a token stream. -/
def stackAfter (stack : List Nat) : List (Nat × Bool) → List Nat
  | [] => stack
  | (ln, true) :: rest => stackAfter (ln :: stack) rest
  | (_, false) :: rest =>
    match stack with
    | [] => stackAfter [] rest
    | _ :: stack2 => stackAfter stack2 rest

/-- Number of `loop` tokens. -/
def loopsOf (ts : List (Nat × Bool)) : Nat :=
  ts.countP (fun t => t.2)

/-- Number of `endloop` tokens. -/
def endsOf (ts : List (Nat × Bool)) : Nat :=
  ts.countP (fun t => !t.2)

/-! ## C5 machinery: flat commands and frame simulation for the expander -/

/-- Whether `classify` sees a line as a loop header. -/
def isLoopTok (raw : PyStr) : Bool :=
  match classify raw with
  | .loopHeader _ => true
  | _ => false

/-- Whether `classify` sees a line as an `endloop`. -/
def isEndTok (raw : PyStr) : Bool :=
  match classify raw with
  | .endloopTok => true
  | _ => false

/-- Loop-header count of a line list (under `classify`). -/
def loopTokCount (xs : List PyStr) : Nat :=
  xs.countP isLoopTok

/-- `endloop` count of a line list (under `classify`). -/
def endTokCount (xs : List PyStr) : Nat :=
  xs.countP isEndTok

/-- A line as `push_line` emits it: stripped, non-blank, not a comment, and
headed by an allow-listed command word. -/
def flatCmd (s : PyStr) : Prop :=
  pyStrip s = s ∧ s.isEmpty = false ∧ startsWithHash s = false ∧
    ∃ w ws, pyWords s = w :: ws ∧ pyLower w ∈ allowedCmds

/-! ## Gate step lemmas -/

theorem zLoop_nil (idx : Nat) (z : ℚ) (wz : Bool) (zalz zPos : ℚ) :
    zLoop [] idx z wz zalz zPos = if wz then ⟨true, "OK", zalz⟩ else ⟨true, "OK", z⟩ := rfl

theorem zLoop_zero (s : PyStr) (rest : List PyStr) (idx : Nat) (z : ℚ) (wz : Bool)
    (zalz zPos : ℚ) (w a : PyStr) (hws : pyWords s = [w, a])
    (hw : pyLower w = ("zero").data) (ha : pyLower a = ['z']) :
    zLoop (s :: rest) idx z wz zalz zPos = zLoop rest (idx + 1) 0 true 0 zPos := by
  simp [zLoop, hws, hw, ha, argIsZ]

theorem zLoop_move (s : PyStr) (rest : List PyStr) (idx : Nat) (z : ℚ) (wz : Bool)
    (zalz zPos : ℚ) (w a ds : PyStr) (d : ℚ) (hws : pyWords s = [w, a, ds])
    (hw : pyLower w = ("move").data) (ha : pyLower a = ['z'])
    (hd : parseFloat? ds = some d) :
    zLoop (s :: rest) idx z wz zalz zPos =
      if z + d > Z_BUFFER then ⟨false, zLimitMsg idx (z + d), zPos⟩
      else zLoop rest (idx + 1) (z + d) wz (if wz then z + d else zalz) zPos := by
  simp [zLoop, hws, hw, ha, hd, argIsZ, moveArgIsZ, moveDelta?]

/-- On the rejecting path `zLoop` returns the persisted position untouched. -/
theorem zLoop_reject_zPos : ∀ (cmds : List PyStr) (idx : Nat) (z : ℚ) (wz : Bool)
    (zalz zPos : ℚ), (zLoop cmds idx z wz zalz zPos).ok = false →
    (zLoop cmds idx z wz zalz zPos).z_position = zPos := by
  intro cmds
  induction cmds with
  | nil =>
    intro idx z wz zalz zPos h
    cases wz <;> simp [zLoop] at h
  | cons s rest ih =>
    intro idx z wz zalz zPos h
    simp only [zLoop] at h ⊢
    rcases hws : pyWords s with _ | ⟨w, args⟩ <;> simp only [hws] at h ⊢
    · exact ih _ _ _ _ _ h
    · by_cases h1 : (decide (pyLower w = ("zero").data) && argIsZ args) = true
      · rw [if_pos h1] at h ⊢
        exact ih _ _ _ _ _ h
      · rw [if_neg h1] at h ⊢
        by_cases h2 : (decide (pyLower w = ("move").data) && moveArgIsZ args) = true
        · rw [if_pos h2] at h ⊢
          rcases hd : moveDelta? args with _ | d <;> simp only [hd] at h ⊢
          · exact ih _ _ _ _ _ h
          · by_cases h3 : z + d > Z_BUFFER
            · rw [if_pos h3]
            · rw [if_neg h3] at h ⊢
              exact ih _ _ _ _ _ h
        · rw [if_neg h2] at h ⊢
          exact ih _ _ _ _ _ h

/-- The gate's `zero`-dispatch condition coincides with `isZeroTok` once the
word list is exposed. -/
theorem zero_cond_eq (s : PyStr) (w : PyStr) (args : List PyStr)
    (hws : pyWords s = w :: args) :
    (decide (pyLower w = ("zero").data) && argIsZ args) = isZeroTok s := by
  rcases args with _ | ⟨a, args2⟩
  · simp [isZeroTok, hws, argIsZ]
  · rcases args2 with _ | ⟨b, args3⟩
    · simp [isZeroTok, hws, argIsZ]
    · simp [isZeroTok, hws, argIsZ]

/-- A `zero z` command (in the gate's sense) has exactly the shape the
dispatch tests for. -/
theorem isZeroTok_shape (s : PyStr) (hz : isZeroTok s = true) :
    ∃ w a, pyWords s = [w, a] ∧ pyLower w = ("zero").data ∧ pyLower a = ['z'] := by
  unfold isZeroTok at hz
  rcases hws : pyWords s with _ | ⟨w, args⟩ <;> rw [hws] at hz
  · simp at hz
  · rcases args with _ | ⟨a, args2⟩
    · simp at hz
    · rcases args2 with _ | ⟨b, args3⟩
      · simp only [Bool.and_eq_true, decide_eq_true_eq] at hz
        exact ⟨w, a, rfl, hz.1, hz.2⟩
      · simp at hz

/-- After the simulated position was re-based (`will_zero` set,
`z_after_last_zero = z`), an accepted zero-free run ends with the persisted
position equal to the incoming `z` plus the sum of its `move z` deltas. -/
theorem zLoop_no_zero : ∀ (post : List PyStr) (idx : Nat) (z zPos : ℚ),
    (∀ t ∈ post, isZeroTok t = false) →
    (zLoop post idx z true z zPos).ok = true →
    (zLoop post idx z true z zPos).z_position = z + zDeltaSum post := by
  intro post
  induction post with
  | nil =>
    intro idx z zPos _ _
    simp [zLoop, zDeltaSum]
  | cons s rest ih =>
    intro idx z zPos hnz h
    have hs : isZeroTok s = false := hnz s (List.mem_cons_self s rest)
    have hrest : ∀ t ∈ rest, isZeroTok t = false := fun t ht => hnz t (List.mem_cons_of_mem s ht)
    simp only [zLoop] at h ⊢
    rcases hws : pyWords s with _ | ⟨w, args⟩ <;> simp only [hws] at h ⊢
    · rw [show zDeltaSum (s :: rest) = zDeltaSum rest from by simp only [zDeltaSum, hws]]
      exact ih _ _ _ hrest h
    · rw [zero_cond_eq s w args hws, hs] at h ⊢
      simp only [Bool.false_eq_true, if_false] at h ⊢
      by_cases h2 : (decide (pyLower w = ("move").data) && moveArgIsZ args) = true
      · rw [if_pos h2] at h ⊢
        rcases hd : moveDelta? args with _ | d <;> simp only [hd] at h ⊢
        · rw [show zDeltaSum (s :: rest) = zDeltaSum rest from by
            simp only [zDeltaSum, hws]; rw [if_pos h2, hd]]
          exact ih _ _ _ hrest h
        · by_cases h3 : z + d > Z_BUFFER
          · rw [if_pos h3] at h
            simp at h
          · rw [if_neg h3] at h ⊢
            simp only [if_true] at h ⊢
            rw [show zDeltaSum (s :: rest) = d + zDeltaSum rest from by
              simp only [zDeltaSum, hws]; rw [if_pos h2, hd]]
            rw [ih _ _ _ hrest h]
            ring
      · rw [if_neg h2] at h ⊢
        rw [show zDeltaSum (s :: rest) = zDeltaSum rest from by
          simp only [zDeltaSum, hws]; rw [if_neg h2]]
        exact ih _ _ _ hrest h

/-- If an accepted run contains a `zero z` with no later `zero z`, the
persisted position it leaves behind is the sum of the `move z` deltas
strictly after that zero. -/
theorem zLoop_after_zero : ∀ (pre : List PyStr) (s : PyStr) (post : List PyStr)
    (idx : Nat) (z : ℚ) (wz : Bool) (zalz zPos : ℚ),
    isZeroTok s = true → (∀ t ∈ post, isZeroTok t = false) →
    (zLoop (pre ++ s :: post) idx z wz zalz zPos).ok = true →
    (zLoop (pre ++ s :: post) idx z wz zalz zPos).z_position = zDeltaSum post := by
  intro pre
  induction pre with
  | nil =>
    intro s post idx z wz zalz zPos hz hnz h
    obtain ⟨w, a, hws, hw, ha⟩ := isZeroTok_shape s hz
    rw [List.nil_append] at h ⊢
    rw [zLoop_zero s post idx z wz zalz zPos w a hws hw ha] at h ⊢
    rw [zLoop_no_zero post (idx + 1) 0 zPos hnz h]
    ring
  | cons p pre2 ih =>
    intro s post idx z wz zalz zPos hz hnz h
    rw [List.cons_append] at h ⊢
    simp only [zLoop] at h ⊢
    rcases hws : pyWords p with _ | ⟨w, args⟩ <;> simp only [hws] at h ⊢
    · exact ih _ _ _ _ _ _ _ hz hnz h
    · by_cases h1 : (decide (pyLower w = ("zero").data) && argIsZ args) = true
      · rw [if_pos h1] at h ⊢
        exact ih _ _ _ _ _ _ _ hz hnz h
      · rw [if_neg h1] at h ⊢
        by_cases h2 : (decide (pyLower w = ("move").data) && moveArgIsZ args) = true
        · rw [if_pos h2] at h ⊢
          rcases hd : moveDelta? args with _ | d <;> simp only [hd] at h ⊢
          · exact ih _ _ _ _ _ _ _ hz hnz h
          · by_cases h3 : z + d > Z_BUFFER
            · rw [if_pos h3] at h
              simp at h
            · rw [if_neg h3] at h ⊢
              exact ih _ _ _ _ _ _ _ hz hnz h
        · rw [if_neg h2] at h ⊢
          exact ih _ _ _ _ _ _ _ hz hnz h

/-- C1: the soft-limit gate `_check_z_soft_limit`, starting from the
persisted axis state, processes flattened commands in order; a `move z d`
command at 1-based index `idx` is rejected exactly when `z + d > 2.0`, with
a message naming the index, the would-be position and the limit
(`zLimitMsg`); concretely, from state 0 `["move z 1.5", "move z 1.0"]` is
rejected at the second command, `["move z 1.0", "move z 1.0"]` is accepted
ending at 2.0, and from state -50.0 `["move z 10"]` is accepted ending at
-40.0. -/
theorem c1_soft_limit_gate :
    (∀ (s : PyStr) (rest : List PyStr) (idx : Nat) (z : ℚ) (wz : Bool) (zalz zPos : ℚ)
        (w a ds : PyStr) (d : ℚ), pyWords s = [w, a, ds] → pyLower w = ("move").data →
        pyLower a = ['z'] → parseFloat? ds = some d →
        zLoop (s :: rest) idx z wz zalz zPos =
          if z + d > Z_BUFFER then ⟨false, zLimitMsg idx (z + d), zPos⟩
          else zLoop rest (idx + 1) (z + d) wz (if wz then z + d else zalz) zPos) ∧
    Z_BUFFER = 2 ∧
    check_z_soft_limit 0 [("move z 1.5").data, ("move z 1.0").data] =
      ⟨false, zLimitMsg 2 (5 / 2), 0⟩ ∧
    zLimitMsg 2 (5 / 2) =
      "Command #2 would move Z beyond buffer (to 2.5, limit 2.0). Use \x27zero z\x27 at contact point or reduce the move." ∧
    check_z_soft_limit 0 [("move z 1.0").data, ("move z 1.0").data] = ⟨true, "OK", 2⟩ ∧
    check_z_soft_limit (-50) [("move z 10").data] = ⟨true, "OK", -40⟩ := by
  refine ⟨fun s rest idx z wz zalz zPos w a ds d hws hw ha hd =>
    zLoop_move s rest idx z wz zalz zPos w a ds d hws hw ha hd,
    rfl, by decide, by decide, by decide, by decide⟩

/-- Witness for C1: the step characterisation applied at a concrete
over-limit command. -/
theorem c1_witness :
    zLoop [("move z 9").data] 1 0 false 0 0 = ⟨false, zLimitMsg 1 (0 + 9), 0⟩ := by
  have h := c1_soft_limit_gate.1 ("move z 9").data [] 1 0 false 0 0
    ("move").data ['z'] ("9").data 9 (by decide) (by decide) (by decide) (by decide)
  rw [h, if_pos (by norm_num [Z_BUFFER])]

/-- C2 counterexample: from persisted state 1.5 (reachable, e.g. by a prior
accepted run `["move z 51.5"]` from the initial -50), the script
`["move z 1.0", "zero z", "move z 0.5"]` is rejected, so the gate does NOT
accept it regardless of the starting axis state. -/
theorem c2_counterexample :
    (check_z_soft_limit (3 / 2)
      [("move z 1.0").data, ("zero z").data, ("move z 0.5").data]).ok = false ∧
    (check_z_soft_limit (-50) [("move z 51.5").data]) = ⟨true, "OK", 3 / 2⟩ := by
  constructor <;> decide

/-- C2 (amended): the script `["move z 1.0", "zero z", "move z 0.5"]` is
accepted exactly when the starting state `z0` satisfies `z0 + 1.0 ≤ 2.0`,
and then ends with persisted state 0.5; in general, an accepted run
containing a `zero z` with no later `zero z` leaves the persisted state
equal to the `move z` displacement accumulated strictly after that zero. -/
theorem c2_zero_reset_amended :
    (∀ z0 : ℚ, z0 ≤ 1 →
      check_z_soft_limit z0 [("move z 1.0").data, ("zero z").data, ("move z 0.5").data] =
        ⟨true, "OK", 1 / 2⟩) ∧
    (∀ z0 : ℚ, 1 < z0 →
      (check_z_soft_limit z0
        [("move z 1.0").data, ("zero z").data, ("move z 0.5").data]).ok = false) ∧
    (∀ (z0 : ℚ) (pre : List PyStr) (s : PyStr) (post : List PyStr),
      isZeroTok s = true → (∀ t ∈ post, isZeroTok t = false) →
      (check_z_soft_limit z0 (pre ++ s :: post)).ok = true →
      (check_z_soft_limit z0 (pre ++ s :: post)).z_position = zDeltaSum post) := by
  refine ⟨?_, ?_, ?_⟩
  · intro z0 h
    unfold check_z_soft_limit
    rw [zLoop_move _ _ 1 z0 false 0 z0 ("move").data ['z'] ("1.0").data 1
      (by decide) (by decide) (by decide) (by decide)]
    rw [if_neg (by unfold Z_BUFFER; linarith)]
    norm_num
    rw [zLoop_zero _ _ 2 (z0 + 1) false 0 z0 ("zero").data ['z']
      (by decide) (by decide) (by decide)]
    rw [zLoop_move _ _ 3 0 true 0 z0 ("move").data ['z'] ("0.5").data (1 / 2)
      (by decide) (by decide) (by decide) (by decide)]
    rw [if_neg (by unfold Z_BUFFER; norm_num)]
    norm_num
    rw [zLoop_nil]
    norm_num
  · intro z0 h
    unfold check_z_soft_limit
    rw [zLoop_move _ _ 1 z0 false 0 z0 ("move").data ['z'] ("1.0").data 1
      (by decide) (by decide) (by decide) (by decide)]
    rw [if_pos (by unfold Z_BUFFER; linarith)]
  · intro z0 pre s post hz hnz h
    exact zLoop_after_zero pre s post 1 z0 false 0 z0 hz hnz h

/-- Witness for C2: the amended theorem applied at starting state 0 and at
the concrete split of the example script around its `zero z`. -/
theorem c2_witness :
    check_z_soft_limit 0 [("move z 1.0").data, ("zero z").data, ("move z 0.5").data] =
      ⟨true, "OK", 1 / 2⟩ ∧
    (check_z_soft_limit 0
      ([("move z 1.0").data] ++ ("zero z").data :: [("move z 0.5").data])).z_position =
      zDeltaSum [("move z 0.5").data] := by
  refine ⟨c2_zero_reset_amended.1 0 (by norm_num), ?_⟩
  exact c2_zero_reset_amended.2.2 0 [("move z 1.0").data] ("zero z").data
    [("move z 0.5").data] (by decide) (by decide) (by decide)

/-- C10: whenever the gate rejects, the persisted `self.z_position` is left
unchanged (the update runs only on the accepting path). -/
theorem c10_reject_preserves_state (z0 : ℚ) (cmds : List PyStr)
    (h : (check_z_soft_limit z0 cmds).ok = false) :
    (check_z_soft_limit z0 cmds).z_position = z0 :=
  zLoop_reject_zPos cmds 1 z0 false 0 z0 h

/-- Witness for C10 at a concrete rejected run. -/
theorem c10_witness :
    (check_z_soft_limit 0 [("move z 3").data]).z_position = 0 :=
  c10_reject_preserves_state 0 [("move z 3").data] (by decide)

/-- When the window is full (32 or more received `[queued]` echoes not yet
matched by `[dequeued]` acknowledgments), a send-loop iteration transmits
nothing: the state is unchanged. -/
theorem flowStep_blocked (total : Nat) (s : FlowState)
    (h : windowSize ≤ s.queued_reports - s.dequeued_reports) :
    flowStep total s FlowEvent.sendCmd = s := by
  simp only [flowStep]
  rw [if_neg (fun hcon => absurd hcon.2 (by omega))]

/-- Under prompt echoes — every send-loop iteration runs in a state where
each previously sent command's `[queued]` echo has been received
(`queued_reports = idx`) — a run without `[dequeued]` acknowledgments
keeps `dequeued_reports = 0` and never sends more than the window. -/
theorem flow_prompt_inv : ∀ (evs : List FlowEvent) (total : Nat) (s : FlowState),
    FlowEvent.recvDequeued ∉ evs →
    (∀ k, k < evs.length → evs[k]? = some FlowEvent.sendCmd →
      (List.foldl (flowStep total) s (evs.take k)).queued_reports =
        (List.foldl (flowStep total) s (evs.take k)).idx) →
    s.dequeued_reports = 0 → s.idx ≤ windowSize →
    (List.foldl (flowStep total) s evs).dequeued_reports = 0 ∧
      (List.foldl (flowStep total) s evs).idx ≤ windowSize := by
  intro evs
  induction evs with
  | nil => intro total s _ _ h1 h2; exact ⟨h1, h2⟩
  | cons e rest ih =>
    intro total s hmem hprompt h1 h2
    have hrest : FlowEvent.recvDequeued ∉ rest := fun hc => hmem (List.mem_cons_of_mem e hc)
    rw [List.foldl_cons]
    have hpromptrest : ∀ k, k < rest.length → rest[k]? = some FlowEvent.sendCmd →
        (List.foldl (flowStep total) (flowStep total s e) (rest.take k)).queued_reports =
          (List.foldl (flowStep total) (flowStep total s e) (rest.take k)).idx := by
      intro k hk hsk
      have h3 := hprompt (k + 1) (by simp; omega) (by simpa using hsk)
      rw [List.take_succ_cons, List.foldl_cons] at h3
      exact h3
    cases e with
    | sendCmd =>
      have h0 := hprompt 0 (by simp) (by simp)
      rw [List.take_zero, List.foldl_nil] at h0
      obtain ⟨q, d, i⟩ := s
      simp only at h0 h1 h2
      refine ih total _ hrest hpromptrest ?_ ?_
      · simp only [flowStep]
        split_ifs <;> simpa using h1
      · simp only [flowStep, windowSize] at h2 ⊢
        split_ifs with hg
        · simp only at hg ⊢
          omega
        · simpa using h2
    | recvQueued =>
      obtain ⟨q, d, i⟩ := s
      refine ih total _ hrest hpromptrest ?_ ?_
      · simpa using h1
      · simpa using h2
    | recvDequeued => exact absurd (List.mem_cons_self _ _) hmem
    | timeoutTick => exact ih total _ hrest hpromptrest h1 h2

/-- C3 counterexample: when the `[queued]` echoes are not received (a dead
or lagging device/reader) and no `[dequeued]` acknowledgment arrives, the
guard compares counters that stay at zero, so all 40 send-loop iterations
transmit: the code does not block after the 32nd send, and 40 commands are
sent with none acknowledged as dequeued. -/
theorem c3_counterexample :
    FlowEvent.recvDequeued ∉ List.replicate 40 FlowEvent.sendCmd ∧
    (flowRun 40 (List.replicate 40 FlowEvent.sendCmd)).idx = 40 := by
  constructor <;> decide

/-- C3 (amended): `send_script` bounds received-`[queued]`-echoes minus
`[dequeued]` acknowledgments, not commands sent.  (a) When that echoed
window is full, a send-loop iteration transmits nothing; (b) provided each
sent command's `[queued]` echo is received before the next send-loop
iteration, a device that never sends `[dequeued]` acknowledgments caps
transmissions at 32, so the 33rd command is not transmitted; (c) any run
that transmits more than 32 commands contains a `[dequeued]`
acknowledgment or a send-loop iteration that ran before some echo of an
earlier command had been received. -/
theorem c3_flow_window_amended :
    (∀ (total : Nat) (s : FlowState),
      windowSize ≤ s.queued_reports - s.dequeued_reports →
      flowStep total s FlowEvent.sendCmd = s) ∧
    (∀ (total : Nat) (evs : List FlowEvent),
      FlowEvent.recvDequeued ∉ evs →
      (∀ k, k < evs.length → evs[k]? = some FlowEvent.sendCmd →
        (flowRun total (evs.take k)).queued_reports = (flowRun total (evs.take k)).idx) →
      (flowRun total evs).idx ≤ windowSize) ∧
    (∀ (total : Nat) (evs : List FlowEvent),
      windowSize < (flowRun total evs).idx →
      FlowEvent.recvDequeued ∈ evs ∨
        ∃ k, k < evs.length ∧ evs[k]? = some FlowEvent.sendCmd ∧
          (flowRun total (evs.take k)).queued_reports ≠ (flowRun total (evs.take k)).idx) := by
  have hb : ∀ (total : Nat) (evs : List FlowEvent),
      FlowEvent.recvDequeued ∉ evs →
      (∀ k, k < evs.length → evs[k]? = some FlowEvent.sendCmd →
        (flowRun total (evs.take k)).queued_reports = (flowRun total (evs.take k)).idx) →
      (flowRun total evs).idx ≤ windowSize := by
    intro total evs hmem hprompt
    exact (flow_prompt_inv evs total ⟨0, 0, 0⟩ hmem hprompt rfl (by simp [windowSize])).2
  refine ⟨fun total s h => flowStep_blocked total s h, hb, ?_⟩
  intro total evs hgt
  by_cases h1 : FlowEvent.recvDequeued ∈ evs
  · exact Or.inl h1
  · right
    by_contra h2
    push_neg at h2
    exact absurd (hb total evs h1 h2) (by omega)

/-- Witness for C3: a prompt-echo interleaving (each send followed by the
receipt of its `[queued]` echo) with no `[dequeued]` acknowledgments
transmits at most 32 of the 100 commands; and a send-loop iteration at a
full window changes nothing. -/
theorem c3_witness :
    (flowRun 100 (List.flatten (List.replicate 32
      [FlowEvent.sendCmd, FlowEvent.recvQueued]) ++
        List.replicate 8 FlowEvent.sendCmd)).idx ≤ windowSize ∧
    flowStep 100 ⟨40, 8, 32⟩ FlowEvent.sendCmd = ⟨40, 8, 32⟩ :=
  ⟨c3_flow_window_amended.2.1 100 _ (by decide) (by decide),
   c3_flow_window_amended.1 100 ⟨40, 8, 32⟩ (by decide)⟩

/-- C8: `emergency_stop`, when connected, writes exactly the single byte
`'!'` once and succeeds; its result never depends on the window counters
(it performs no window-accounting reads or waits); it fails only when not
connected or when the write itself raises. -/
theorem c8_emergency_stop :
    (∀ (c : ControllerState) (errText : String), c.is_connected = true →
      emergency_stop c true errText = ((true, "Emergency stop sent"), ['!'])) ∧
    (∀ (c c2 : ControllerState) (writeOk : Bool) (errText : String),
      c.is_connected = c2.is_connected →
      emergency_stop c writeOk errText = emergency_stop c2 writeOk errText) ∧
    (∀ (c : ControllerState) (writeOk : Bool) (errText : String), c.is_connected = false →
      emergency_stop c writeOk errText = ((false, "Not connected"), [])) ∧
    (∀ (c : ControllerState) (errText : String), c.is_connected = true →
      (emergency_stop c false errText).1.1 = false) := by
  refine ⟨?_, ?_, ?_, ?_⟩
  · intro c errText h
    simp [emergency_stop, h]
  · intro c c2 writeOk errText h
    simp [emergency_stop, h]
  · intro c writeOk errText h
    simp [emergency_stop, h]
  · intro c errText h
    simp [emergency_stop, h]

/-- Witness for C8: with a full window (many queued, none dequeued) the
stop still writes its byte once and succeeds. -/
theorem c8_witness :
    emergency_stop ⟨true, 100, 0⟩ true "" = ((true, "Emergency stop sent"), ['!']) ∧
    emergency_stop ⟨true, 100, 0⟩ true "" = emergency_stop ⟨true, 0, 0⟩ true "" :=
  ⟨c8_emergency_stop.1 ⟨true, 100, 0⟩ "" rfl,
   c8_emergency_stop.2.1 ⟨true, 100, 0⟩ ⟨true, 0, 0⟩ true "" rfl⟩

/-- When validation fails, `send_to_arduino` exits on the validation path
and leaves the persisted state untouched. -/
theorem send_to_arduino_validation_fail (z0 : ℚ) (text : PyStr)
    (h : validate_script text ≠ []) :
    send_to_arduino true z0 text = (SendOutcome.validationFailed (validate_script text), z0) := by
  simp only [send_to_arduino]
  rw [if_neg (by simp), if_pos h]

/-- C9: `validate_script` runs its own Z soft-limit simulation from
position 0 with no access to the session's persisted state: `"move z 10"`
is flagged (error on line 1) although the gate itself would accept it from
any sufficiently low persisted state (e.g. the initial -50.0); and since
`send_to_arduino` validates before running the persistent gate, the script
is never handed to the transport, for every persisted state. -/
theorem c9_validator_ignores_state :
    ∀ z0 : ℚ,
      validate_script ("move z 10").data ≠ [] ∧
      (validate_script ("move z 10").data).map VErr.line_num = [1] ∧
      (z0 + 10 ≤ 2 → check_z_soft_limit z0 [("move z 10").data] = ⟨true, "OK", z0 + 10⟩) ∧
      (send_to_arduino true z0 ("move z 10").data).1 =
        SendOutcome.validationFailed (validate_script ("move z 10").data) ∧
      (send_to_arduino true z0 ("move z 10").data).2 = z0 ∧
      ∀ cmds, (send_to_arduino true z0 ("move z 10").data).1 ≠ SendOutcome.invoked cmds := by
  intro z0
  have herr : validate_script ("move z 10").data ≠ [] := by decide
  have hsend := send_to_arduino_validation_fail z0 ("move z 10").data herr
  refine ⟨herr, by decide, ?_, ?_, ?_, ?_⟩
  · intro h
    unfold check_z_soft_limit
    rw [zLoop_move _ _ 1 z0 false 0 z0 ("move").data ['z'] ("10").data 10
      (by decide) (by decide) (by decide) (by decide)]
    rw [if_neg (by unfold Z_BUFFER; linarith)]
    rw [zLoop_nil]
    norm_num
  · rw [hsend]
  · rw [hsend]
  · intro cmds
    rw [hsend]
    simp

/-- Witness for C9: from the initial persisted state -50.0 the gate itself
accepts `["move z 10"]`. -/
theorem c9_witness :
    check_z_soft_limit (-50) [("move z 10").data] = ⟨true, "OK", -50 + 10⟩ :=
  (c9_validator_ignores_state (-50)).2.2.1 (by norm_num)

/-- Every error produced by `validate_line` carries the line number it was
called with. -/
theorem validate_line_line_num (l : PyStr) (n : Nat) (e : VErr)
    (h : validate_line l n = some e) : e.line_num = n := by
  simp only [validate_line, validate_move_command, validate_speed_command, validate_loop_command,
    validate_endloop_command, validate_pulse_command, validate_wait_command] at h
  by_cases h0 : (List.isEmpty (pyStrip l) || startsWithHash (pyStrip l)) = true
  · rw [if_pos h0] at h
    exact Option.noConfusion h
  · rw [if_neg h0] at h
    rcases hws : pyWords (pyStrip l) with _ | ⟨w, tail⟩ <;> simp only [hws] at h
    · exact Option.noConfusion h
    · repeat' split at h
      all_goals first
        | (injection h with h2; subst h2; rfl)
        | simp at h

/-- Index-to-membership for `enum1`. -/
theorem mem_enum1 : ∀ (l : List α) (i n : Nat) (a : α), l[i]? = some a →
    (n + i, a) ∈ enum1 n l := by
  intro l
  induction l with
  | nil => intro i n a h; simp at h
  | cons x xs ih =>
    intro i n a h
    cases i with
    | zero =>
      rw [List.getElem?_cons_zero, Option.some.injEq] at h
      subst h
      rw [Nat.add_zero, enum1]
      exact List.mem_cons_self _ _
    | succ j =>
      rw [List.getElem?_cons_succ] at h
      rw [enum1]
      refine List.mem_cons_of_mem _ ?_
      rw [show n + (j + 1) = (n + 1) + j by omega]
      exact ih j (n + 1) a h

/-- C4 counterexample: the syntactically invalid line `"endloop x"` receives
TWO errors on line 1 (the per-line arity error and the structural
`endloop without matching loop` error), so the error list does not contain
exactly one entry for that line. -/
theorem c4_counterexample :
    validate_line ("endloop x").data 1 =
      some ⟨1, "endloop takes no parameters, got 1"⟩ ∧
    ¬ ((validate_script ("endloop x").data).countP (fun e => e.line_num == 1) = 1) ∧
    validate_script ("endloop x").data =
      [⟨1, "endloop takes no parameters, got 1"⟩, ⟨1, "endloop without matching loop"⟩] := by
  refine ⟨by decide, by decide, by decide⟩

/-- C4 (amended): for every script and every syntactically invalid line
(i.e. one on which `validate_line` reports an error), `validate_script`
returns a non-empty list containing AT LEAST that line's per-line error,
whose line number is the line's 1-based number; structural or soft-limit
errors may add further entries on the same line, so "exactly one" fails. -/
theorem c4_per_line_error_amended (text : PyStr) (i : Nat) (line : PyStr) (e : VErr)
    (hline : (pySplitNL text)[i]? = some line)
    (herr : validate_line line (i + 1) = some e) :
    e ∈ validate_script text ∧ e.line_num = i + 1 ∧ validate_script text ≠ [] := by
  have hmem1 : (i + 1, line) ∈ enum1 1 (pySplitNL text) := by
    have h2 := mem_enum1 (pySplitNL text) i 1 line hline
    rwa [Nat.add_comm 1 i] at h2
  have hmem2 : e ∈ perLineErrors (pySplitNL text) :=
    List.mem_filterMap.mpr ⟨(i + 1, line), hmem1, herr⟩
  have hmem3 : e ∈ validate_script text := by
    simp only [validate_script]
    exact (List.perm_insertionSort errLe _).mem_iff.mpr
      (List.mem_append_left _ (List.mem_append_left _ hmem2))
  exact ⟨hmem3, validate_line_line_num line (i + 1) e herr,
    fun hnil => by rw [hnil] at hmem3; exact absurd hmem3 (List.not_mem_nil e)⟩

/-- Witness for C4: the amended theorem at the concrete script `"move q 1"`. -/
theorem c4_witness :
    (⟨1, "Invalid axis \x27q\x27, must be \x27x\x27 or \x27z\x27"⟩ : VErr) ∈
      validate_script ("move q 1").data ∧
    validate_script ("move q 1").data ≠ [] := by
  have h := c4_per_line_error_amended ("move q 1").data 0 ("move q 1").data
    ⟨1, "Invalid axis \x27q\x27, must be \x27x\x27 or \x27z\x27"⟩ (by decide) (by decide)
  exact ⟨h.1, h.2.2⟩

/-- C7: `validate_script` never fails fast: the returned list is (a
permutation of) the concatenation of the per-line, structural, and
soft-limit error passes — all accumulated together — and it is always
sorted in nondecreasing order of line number. -/
theorem c7_no_fail_fast (text : PyStr) :
    List.Perm (validate_script text)
      (perLineErrors (pySplitNL text) ++ validate_loop_matching (pySplitNL text) ++
        zSimErrors (pySplitNL text)) ∧
    List.Sorted errLe (validate_script text) := by
  constructor
  · simp only [validate_script]
    exact List.perm_insertionSort errLe _
  · simp only [validate_script]
    exact List.sorted_insertionSort errLe _

/-- `validate_loop_matching`'s scan is the token automaton. -/
theorem loopMatchGo_eq_matchRun : ∀ (l : List (Nat × PyStr)) (stack : List Nat),
    loopMatchGo stack l = matchRun stack (l.filterMap lmToken) := by
  intro l
  induction l with
  | nil => intro stack; rfl
  | cons p rest ih =>
    intro stack
    simp only [loopMatchGo, lmToken, List.filterMap_cons]
    by_cases h0 : (List.isEmpty (pyStrip p.2) || startsWithHash (pyStrip p.2)) = true
    · rw [if_pos h0, if_pos h0]
      exact ih stack
    · rw [if_neg h0, if_neg h0]
      rcases hws : pyWords (pyStrip p.2) with _ | ⟨w, tl⟩ <;> simp only [hws]
      · exact ih stack
      · by_cases hl : pyLower w = ("loop").data
        · rw [if_pos hl, if_pos hl]
          simp only [matchRun]
          exact ih (p.1 :: stack)
        · rw [if_neg hl, if_neg hl]
          by_cases he : pyLower w = ("endloop").data
          · rw [if_pos he, if_pos he]
            rcases stack with _ | ⟨top, stack2⟩
            · simp only [matchRun]
              rw [ih []]
            · simp only [matchRun]
              exact ih stack2
          · rw [if_neg he, if_neg he]
            exact ih stack

/-- `matchRun` is its scan errors followed by the unclosed-loop report. -/
theorem matchRun_decompose : ∀ (ts : List (Nat × Bool)) (stack : List Nat),
    matchRun stack ts = scanErrors stack ts ++
      (stackAfter stack ts).reverse.map (fun ln => ⟨ln, "loop without matching endloop"⟩) := by
  intro ts
  induction ts with
  | nil => intro stack; simp [matchRun, scanErrors, stackAfter]
  | cons t rest ih =>
    intro stack
    rcases t with ⟨ln, b⟩
    cases b
    · rcases stack with _ | ⟨top, stack2⟩
      · simp only [matchRun, scanErrors, stackAfter, List.cons_append]
        rw [ih []]
      · simp only [matchRun, scanErrors, stackAfter]
        exact ih stack2
    · simp only [matchRun, scanErrors, stackAfter]
      exact ih (ln :: stack)

/-- Splitting a `matchRun` at a concatenation point. -/
theorem matchRun_append : ∀ (p q : List (Nat × Bool)) (stack : List Nat),
    matchRun stack (p ++ q) = scanErrors stack p ++ matchRun (stackAfter stack p) q := by
  intro p
  induction p with
  | nil => intro q stack; simp [scanErrors, stackAfter]
  | cons t rest ih =>
    intro q stack
    rcases t with ⟨ln, b⟩
    cases b
    · rcases stack with _ | ⟨top, stack2⟩
      · simp only [List.cons_append, matchRun, scanErrors, stackAfter, List.append_eq]
        rw [ih q []]
      · simp only [List.cons_append, matchRun, scanErrors, stackAfter, List.append_eq]
        exact ih q stack2
    · simp only [List.cons_append, matchRun, scanErrors, stackAfter, List.append_eq]
      exact ih q (ln :: stack)

/-- A run whose prefixes never pop below the initial stack produces no scan
errors, and its final stack size is determined by the token counts. -/
theorem clean_run : ∀ (ts : List (Nat × Bool)) (stack : List Nat),
    (∀ j ≤ ts.length, endsOf (ts.take j) ≤ stack.length + loopsOf (ts.take j)) →
    scanErrors stack ts = [] ∧
    (stackAfter stack ts).length + endsOf ts = stack.length + loopsOf ts := by
  intro ts
  induction ts with
  | nil => intro stack _; simp [scanErrors, stackAfter, endsOf, loopsOf]
  | cons t rest ih =>
    intro stack H
    rcases t with ⟨ln, b⟩
    cases b
    · have h1 : 1 ≤ stack.length := by
        have h2 := H 1 (by simp)
        simp [endsOf, loopsOf, List.countP_cons] at h2
        omega
      rcases stack with _ | ⟨top, stack2⟩
      · simp at h1
      · have H2 : ∀ j ≤ rest.length, endsOf (rest.take j) ≤ stack2.length + loopsOf (rest.take j) := by
          intro j hj
          have h3 := H (j + 1) (by simp; omega)
          simp only [List.take_succ_cons, endsOf, loopsOf, List.countP_cons] at h3 ⊢
          simp at h3
          omega
        obtain ⟨hscan, hlen⟩ := ih stack2 H2
        refine ⟨?_, ?_⟩
        · simp only [scanErrors]
          exact hscan
        · simp only [stackAfter, endsOf, loopsOf, List.countP_cons] at hlen ⊢
          simp at hlen ⊢
          omega
    · have H2 : ∀ j ≤ rest.length, endsOf (rest.take j) ≤ (ln :: stack).length + loopsOf (rest.take j) := by
        intro j hj
        have h3 := H (j + 1) (by simp; omega)
        simp only [List.take_succ_cons, endsOf, loopsOf, List.countP_cons] at h3 ⊢
        simp at h3 ⊢
        omega
      obtain ⟨hscan, hlen⟩ := ih (ln :: stack) H2
      refine ⟨?_, ?_⟩
      · simp only [scanErrors]
        exact hscan
      · simp only [stackAfter, endsOf, loopsOf, List.countP_cons] at hlen ⊢
        simp at hlen ⊢
        omega

/-- If a token suffix never pops more than it pushed (plus the `hi` slack),
the part of the stack below `hi` survives untouched. -/
theorem stackAfter_skeleton : ∀ (q : List (Nat × Bool)) (hi lo : List Nat),
    (∀ j ≤ q.length, endsOf (q.take j) ≤ hi.length + loopsOf (q.take j)) →
    ∃ hi2, stackAfter (hi ++ lo) q = hi2 ++ lo := by
  intro q
  induction q with
  | nil => intro hi lo _; exact ⟨hi, rfl⟩
  | cons t rest ih =>
    intro hi lo H
    rcases t with ⟨ln, b⟩
    cases b
    · have h1 : 1 ≤ hi.length := by
        have h2 := H 1 (by simp)
        simp [endsOf, loopsOf, List.countP_cons] at h2
        omega
      rcases hi with _ | ⟨top, hi2⟩
      · simp at h1
      · have H2 : ∀ j ≤ rest.length, endsOf (rest.take j) ≤ hi2.length + loopsOf (rest.take j) := by
          intro j hj
          have h3 := H (j + 1) (by simp; omega)
          simp only [List.take_succ_cons, endsOf, loopsOf, List.countP_cons] at h3 ⊢
          simp at h3
          omega
        simp only [List.cons_append, stackAfter]
        exact ih hi2 lo H2
    · have H2 : ∀ j ≤ rest.length, endsOf (rest.take j) ≤ (ln :: hi).length + loopsOf (rest.take j) := by
        intro j hj
        have h3 := H (j + 1) (by simp; omega)
        simp only [List.take_succ_cons, endsOf, loopsOf, List.countP_cons] at h3 ⊢
        simp at h3 ⊢
        omega
      simp only [stackAfter]
      have h4 := ih (ln :: hi) lo H2
      simpa using h4

/-- C6: on the loop/endloop token stream of a script, (a) a balanced script
(every prefix has no more `endloop`s than `loop`s, totals equal) yields no
structural error; (b) an `endloop` token reached with an empty stack (clean
balanced prefix) is reported on that `endloop`'s line; (c) a `loop` token
that is never closed by its suffix is reported as an unclosed loop on its
opening line. -/
theorem c6_loop_matching (lines : List PyStr) :
    ((∀ j ≤ (lmTokens lines).length,
        endsOf ((lmTokens lines).take j) ≤ loopsOf ((lmTokens lines).take j)) →
      endsOf (lmTokens lines) = loopsOf (lmTokens lines) →
      validate_loop_matching lines = []) ∧
    (∀ (p : List (Nat × Bool)) (ln : Nat) (q : List (Nat × Bool)),
      lmTokens lines = p ++ (ln, false) :: q →
      (∀ j ≤ p.length, endsOf (p.take j) ≤ loopsOf (p.take j)) →
      endsOf p = loopsOf p →
      (⟨ln, "endloop without matching loop"⟩ : VErr) ∈ validate_loop_matching lines) ∧
    (∀ (p : List (Nat × Bool)) (ln : Nat) (q : List (Nat × Bool)),
      lmTokens lines = p ++ (ln, true) :: q →
      (∀ j ≤ q.length, endsOf (q.take j) ≤ loopsOf (q.take j)) →
      (⟨ln, "loop without matching endloop"⟩ : VErr) ∈ validate_loop_matching lines) := by
  have hvm : validate_loop_matching lines = matchRun [] (lmTokens lines) := by
    unfold validate_loop_matching lmTokens
    exact loopMatchGo_eq_matchRun (enum1 1 lines) []
  refine ⟨?_, ?_, ?_⟩
  · intro hpre hbal
    rw [hvm, matchRun_decompose]
    obtain ⟨hscan, hlen⟩ := clean_run (lmTokens lines) []
      (by intro j hj; simpa using hpre j hj)
    rw [hscan]
    have h0 : (stackAfter [] (lmTokens lines)).length = 0 := by
      simp at hlen
      omega
    rw [List.length_eq_zero.mp h0]
    simp
  · intro p ln q hsplit hpre hbal
    rw [hvm, hsplit, matchRun_append]
    obtain ⟨hscan, hlen⟩ := clean_run p [] (by intro j hj; simpa using hpre j hj)
    rw [hscan]
    have h0 : (stackAfter [] p).length = 0 := by
      simp at hlen
      omega
    rw [List.length_eq_zero.mp h0]
    simp only [matchRun, List.nil_append]
    exact List.mem_cons_self _ _
  · intro p ln q hsplit hq
    rw [hvm, hsplit, matchRun_append]
    simp only [matchRun]
    rw [matchRun_decompose]
    obtain ⟨hi2, hsk⟩ := stackAfter_skeleton q [] (ln :: stackAfter [] p)
      (by intro j hj; simpa using hq j hj)
    rw [List.nil_append] at hsk
    rw [hsk]
    refine List.mem_append_right _ (List.mem_append_right _ ?_)
    exact List.mem_map_of_mem _
      (List.mem_reverse.mpr (List.mem_append_right _ (List.mem_cons_self _ _)))

/-- Witness for C6: a balanced script, an extra `endloop`, and an unclosed
`loop`, each through the claim theorem. -/
theorem c6_witness :
    validate_loop_matching [("loop 2").data, ("move x 1").data, ("endloop").data] = [] ∧
    (⟨1, "endloop without matching loop"⟩ : VErr) ∈ validate_loop_matching [("endloop").data] ∧
    (⟨1, "loop without matching endloop"⟩ : VErr) ∈ validate_loop_matching [("loop 2").data] := by
  refine ⟨(c6_loop_matching _).1 (by decide) (by decide), ?_, ?_⟩
  · exact (c6_loop_matching [("endloop").data]).2.1 [] 1 [] (by decide) (by decide) (by decide)
  · exact (c6_loop_matching [("loop 2").data]).2.2 [] 1 [] (by decide) (by decide)

theorem dropWhile_self (p : α → Bool) : ∀ l : List α,
    List.dropWhile p (List.dropWhile p l) = List.dropWhile p l := by
  intro l
  induction l with
  | nil => rfl
  | cons a l ih =>
    by_cases h : p a = true
    · rw [List.dropWhile_cons, if_pos h]
      exact ih
    · rw [List.dropWhile_cons, if_neg h, List.dropWhile_cons, if_neg h]

theorem dropWhile_head_false (p : α → Bool) : ∀ (l : List α) (c : α) (cs : List α),
    List.dropWhile p l = c :: cs → p c = false := by
  intro l
  induction l with
  | nil => intro c cs h; exact absurd h (by simp)
  | cons a l ih =>
    intro c cs h
    by_cases ha : p a = true
    · rw [List.dropWhile_cons, if_pos ha] at h
      exact ih c cs h
    · rw [List.dropWhile_cons, if_neg ha] at h
      cases h
      simpa using ha

/-- A string whose head is not whitespace keeps that head after a
right-side strip, so a further left strip is a no-op. -/
theorem strip_front (y : PyStr) (hy : ∀ c cs, y = c :: cs → pyIsSpace c = false) :
    List.dropWhile pyIsSpace (List.dropWhile pyIsSpace y.reverse).reverse =
      (List.dropWhile pyIsSpace y.reverse).reverse := by
  rcases y with _ | ⟨c, ys⟩
  · simp
  · have hc := hy c ys rfl
    rw [show (c :: ys).reverse = ys.reverse ++ [c] from by simp]
    rw [List.dropWhile_append]
    by_cases hemp : (List.dropWhile pyIsSpace ys.reverse).isEmpty = true
    · rw [if_pos hemp]
      simp [List.dropWhile_cons, hc]
    · rw [if_neg hemp, List.reverse_append]
      simp only [List.reverse_cons, List.reverse_nil, List.nil_append, List.singleton_append]
      rw [List.dropWhile_cons, if_neg (by simp [hc])]

/-- `str.strip()` is idempotent. -/
theorem pyStrip_idem (s : PyStr) : pyStrip (pyStrip s) = pyStrip s := by
  unfold pyStrip
  rw [strip_front (List.dropWhile pyIsSpace s)
    (fun c cs h => dropWhile_head_false pyIsSpace s c cs h)]
  rw [List.reverse_reverse, dropWhile_self]

theorem push_line_append (t : List PyStr) (l : PyStr) :
    push_line t l = t ++ push_line [] l := by
  simp only [push_line]
  by_cases h0 : (List.isEmpty (pyStrip l) || startsWithHash (pyStrip l)) = true
  · rw [if_pos h0, if_pos h0]
    simp
  · rw [if_neg h0, if_neg h0]
    rcases hws : pyWords (pyStrip l) with _ | ⟨w, tl⟩ <;> simp only [hws]
    · simp
    · by_cases ha : pyLower w ∈ allowedCmds
      · rw [if_pos ha, if_pos ha]
        simp
      · rw [if_neg ha, if_neg ha]
        simp

/-- Everything `push_line` adds is a flat command. -/
theorem push_line_mem (t : List PyStr) (l : PyStr) (x : PyStr)
    (h : x ∈ push_line t l) : x ∈ t ∨ flatCmd x := by
  simp only [push_line] at h
  by_cases h0 : (List.isEmpty (pyStrip l) || startsWithHash (pyStrip l)) = true
  · rw [if_pos h0] at h
    exact Or.inl h
  · rw [if_neg h0] at h
    rcases hws : pyWords (pyStrip l) with _ | ⟨w, tl⟩ <;> simp only [hws] at h
    · exact Or.inl h
    · by_cases ha : pyLower w ∈ allowedCmds
      · rw [if_pos ha] at h
        rcases List.mem_append.mp h with hx | hx
        · exact Or.inl hx
        · right
          rw [List.mem_singleton.mp hx]
          have hnb : (List.isEmpty (pyStrip l)) = false ∧ startsWithHash (pyStrip l) = false := by
            constructor <;> (revert h0; cases List.isEmpty (pyStrip l) <;>
              cases startsWithHash (pyStrip l) <;> simp)
          exact ⟨pyStrip_idem l, hnb.1, hnb.2, w, tl, hws, ha⟩
      · rw [if_neg ha] at h
        exact Or.inl h

/-- `classify` treats a flat command as a normal line (it is neither a
`loop` header nor an `endloop`). -/
theorem classify_flat (s : PyStr) (h : flatCmd s) : classify s = .normal s := by
  obtain ⟨h1, h2, h3, w, ws, hws, hall⟩ := h
  have hna : pyLower w ≠ ("loop").data ∧ pyLower w ≠ ("endloop").data := by
    have hd : ∀ c ∈ allowedCmds, c ≠ ("loop").data ∧ c ≠ ("endloop").data := by decide
    exact hd (pyLower w) hall
  simp only [classify, h1]
  rw [if_neg (by simp [h2, h3])]
  simp only [hws]
  rw [if_neg (fun hcon => hna.1 hcon.1), if_neg hna.2]

/-- On flat input the expander copies its input to the output verbatim. -/
theorem convert_flat_run : ∀ (lines : List PyStr) (acc : List PyStr),
    (∀ x ∈ lines, flatCmd x) →
    lines.foldl convertStep ([], acc) = ([], acc ++ lines) := by
  intro lines
  induction lines with
  | nil => intro acc _; simp
  | cons s rest ih =>
    intro acc hall
    have hs : flatCmd s := hall s (List.mem_cons_self _ _)
    have hstep : convertStep ([], acc) s = ([], acc ++ [s]) := by
      simp only [convertStep, classify_flat s hs]
      rw [push_line_append]
      congr 1
      obtain ⟨h1, h2, h3, w, ws, hws, hall2⟩ := hs
      simp only [push_line, h1, hws]
      rw [if_neg (by simp [h2, h3]), if_pos hall2]
      simp
    rw [List.foldl_cons, hstep, ih (acc ++ [s]) (fun x hx => hall x (List.mem_cons_of_mem _ hx))]
    simp

/-- Membership in a Python `body * count` repetition. -/
theorem mem_repeatBody (x : PyStr) (c : Nat) (body : List PyStr)
    (hx : x ∈ List.flatten (List.replicate c body)) : x ∈ body := by
  obtain ⟨l, hl, hxl⟩ := List.mem_flatten.mp hx
  rw [List.eq_of_mem_replicate hl] at hxl
  exact hxl

/-- One expander step preserves "all collected lines are flat commands"
(for the output and for every open frame body). -/
theorem convertStep_inv (stack : List (Nat × List PyStr)) (out : List PyStr) (raw : PyStr)
    (hout : ∀ x ∈ out, flatCmd x) (hstk : ∀ fr ∈ stack, ∀ x ∈ fr.2, flatCmd x) :
    (∀ x ∈ (convertStep (stack, out) raw).2, flatCmd x) ∧
      ∀ fr ∈ (convertStep (stack, out) raw).1, ∀ x ∈ fr.2, flatCmd x := by
  rcases hc : classify raw with _ | n | _ | line <;> simp only [convertStep, hc]
  · exact ⟨hout, hstk⟩
  · refine ⟨hout, ?_⟩
    intro fr hfr x hx
    rcases List.mem_cons.mp hfr with rfl | hfr2
    · simp at hx
    · exact hstk fr hfr2 x hx
  · rcases stack with _ | ⟨⟨count, body⟩, stack2⟩
    · exact ⟨hout, hstk⟩
    · have hbody : ∀ x ∈ body, flatCmd x :=
        fun x hx => hstk (count, body) (List.mem_cons_self _ _) x hx
      rcases stack2 with _ | ⟨⟨c2, b2⟩, rest2⟩
      · refine ⟨?_, by simp⟩
        intro x hx
        rcases List.mem_append.mp hx with hx2 | hx2
        · exact hout x hx2
        · exact hbody x (mem_repeatBody x count body hx2)
      · refine ⟨hout, ?_⟩
        intro fr hfr x hx
        rcases List.mem_cons.mp hfr with rfl | hfr2
        · rcases List.mem_append.mp hx with hx2 | hx2
          · exact hstk (c2, b2) (List.mem_cons_of_mem _ (List.mem_cons_self _ _)) x hx2
          · exact hbody x (mem_repeatBody x count body hx2)
        · exact hstk fr
            (List.mem_cons_of_mem _ (List.mem_cons_of_mem _ hfr2)) x hx
  · rcases stack with _ | ⟨⟨c, b⟩, rest⟩
    · refine ⟨?_, by simp⟩
      intro x hx
      rcases push_line_mem out line x hx with hx2 | hx2
      · exact hout x hx2
      · exact hx2
    · refine ⟨hout, ?_⟩
      intro fr hfr x hx
      rcases List.mem_cons.mp hfr with rfl | hfr2
      · rcases push_line_mem b line x hx with hx2 | hx2
        · exact hstk (c, b) (List.mem_cons_self _ _) x hx2
        · exact hx2
      · exact hstk fr (List.mem_cons_of_mem _ hfr2) x hx

/-- The expander's run preserves the flatness invariant. -/
theorem convert_inv_run : ∀ (lines : List PyStr) (stack : List (Nat × List PyStr))
    (out : List PyStr), (∀ x ∈ out, flatCmd x) →
    (∀ fr ∈ stack, ∀ x ∈ fr.2, flatCmd x) →
    (∀ x ∈ (lines.foldl convertStep (stack, out)).2, flatCmd x) := by
  intro lines
  induction lines with
  | nil => intro stack out hout _; exact hout
  | cons s rest ih =>
    intro stack out hout hstk
    rw [List.foldl_cons]
    obtain ⟨h1, h2⟩ := convertStep_inv stack out s hout hstk
    have := ih (convertStep (stack, out) s).1 (convertStep (stack, out) s).2 h1 h2
    simpa using this

/-- Every output line of the expander is a flat command. -/
theorem convert_all_flat (lines : List PyStr) :
    ∀ x ∈ convert_to_arduino_commands lines, flatCmd x := by
  intro x hx
  exact convert_inv_run lines [] [] (by simp) (by simp) x hx

/-- Output accumulation: the expander only appends to `out`. -/
theorem convertStep_out (stack : List (Nat × List PyStr)) (out : List PyStr) (raw : PyStr) :
    convertStep (stack, out) raw =
      ((convertStep (stack, []) raw).1, out ++ (convertStep (stack, []) raw).2) := by
  rcases hc : classify raw with _ | n | _ | line <;> simp only [convertStep, hc]
  · simp
  · simp
  · rcases stack with _ | ⟨⟨count, body⟩, stack2⟩
    · simp
    · rcases stack2 with _ | ⟨⟨c2, b2⟩, rest2⟩
      · simp
      · simp
  · rcases stack with _ | ⟨⟨c, b⟩, rest⟩
    · simp [push_line_append out line]
    · simp

/-- Output accumulation over a whole run. -/
theorem foldl_convert_out : ∀ (xs : List PyStr) (stack : List (Nat × List PyStr))
    (out : List PyStr),
    xs.foldl convertStep (stack, out) =
      ((xs.foldl convertStep (stack, [])).1, out ++ (xs.foldl convertStep (stack, [])).2) := by
  intro xs
  induction xs with
  | nil => intro stack out; simp
  | cons x rest ih =>
    intro stack out
    rw [List.foldl_cons, List.foldl_cons]
    rcases hcc : convertStep (stack, []) x with ⟨c1, c2⟩
    rw [convertStep_out stack out x, hcc]
    simp only
    rw [ih c1 (out ++ c2), ih c1 c2]
    simp [List.append_assoc]

/-- Stack size after a run whose prefixes never close more loops than they
opened (relative to the initial stack depth). -/
theorem convert_stack_size : ∀ (xs : List PyStr) (σ : List (Nat × List PyStr))
    (out : List PyStr),
    (∀ j ≤ xs.length, endTokCount (xs.take j) ≤ σ.length + loopTokCount (xs.take j)) →
    (xs.foldl convertStep (σ, out)).1.length + endTokCount xs =
      σ.length + loopTokCount xs := by
  intro xs
  induction xs with
  | nil => intro σ out _; simp [endTokCount, loopTokCount]
  | cons x rest ih =>
    intro σ out H
    rw [List.foldl_cons]
    rcases hc : classify x with _ | m | _ | line
    · have hiso : isLoopTok x = false ∧ isEndTok x = false := by
        simp [isLoopTok, isEndTok, hc]
      have hstep : convertStep (σ, out) x = (σ, out) := by simp [convertStep, hc]
      have H2 : ∀ j ≤ rest.length, endTokCount (rest.take j) ≤ σ.length + loopTokCount (rest.take j) := by
        intro j hj
        have h3 := H (j + 1) (by simp; omega)
        simp only [List.take_succ_cons, endTokCount, loopTokCount, List.countP_cons,
          hiso.1, hiso.2] at h3 ⊢
        simp at h3
        omega
      rw [hstep]
      have h4 := ih σ out H2
      simp only [endTokCount, loopTokCount, List.countP_cons, hiso.1, hiso.2] at h4 ⊢
      simp at h4 ⊢
      omega
    · have hiso : isLoopTok x = true ∧ isEndTok x = false := by
        simp [isLoopTok, isEndTok, hc]
      have hstep : convertStep (σ, out) x = ((m, []) :: σ, out) := by simp [convertStep, hc]
      have H2 : ∀ j ≤ rest.length,
          endTokCount (rest.take j) ≤ ((m, []) :: σ).length + loopTokCount (rest.take j) := by
        intro j hj
        have h3 := H (j + 1) (by simp; omega)
        simp only [List.take_succ_cons, endTokCount, loopTokCount, List.countP_cons,
          hiso.1, hiso.2, List.length_cons] at h3 ⊢
        simp at h3 ⊢
        omega
      rw [hstep]
      have h4 := ih ((m, []) :: σ) out H2
      simp only [endTokCount, loopTokCount, List.countP_cons, hiso.1, hiso.2,
        List.length_cons] at h4 ⊢
      simp at h4 ⊢
      omega
    · have hiso : isLoopTok x = false ∧ isEndTok x = true := by
        simp [isLoopTok, isEndTok, hc]
      have hσ : 1 ≤ σ.length := by
        have h3 := H 1 (by simp)
        simp only [List.take_succ_cons, List.take_zero, endTokCount, loopTokCount,
          List.countP_cons, List.countP_nil, hiso.1, hiso.2] at h3
        simp at h3
        omega
      rcases σ with _ | ⟨⟨count, body⟩, σ2⟩
      · simp at hσ
      · have H2 : ∀ j ≤ rest.length,
            endTokCount (rest.take j) ≤ σ2.length + loopTokCount (rest.take j) := by
          intro j hj
          have h3 := H (j + 1) (by simp; omega)
          simp only [List.take_succ_cons, endTokCount, loopTokCount, List.countP_cons,
            hiso.1, hiso.2, List.length_cons] at h3 ⊢
          simp at h3 ⊢
          omega
        have hlen : ∀ st2 (out2 : List PyStr), st2.length = σ2.length →
            (rest.foldl convertStep (st2, out2)).1.length + endTokCount rest =
              σ2.length + loopTokCount rest := by
          intro st2 out2 hst2
          rw [← hst2] at H2 ⊢
          exact ih st2 out2 H2
        rcases σ2 with _ | ⟨⟨c2, b2⟩, rest2⟩
        · have hstep : convertStep ([(count, body)], out) x = ([], out ++ List.flatten (List.replicate count body)) := by
            simp [convertStep, hc]
          rw [hstep]
          have h4 := hlen [] (out ++ List.flatten (List.replicate count body)) rfl
          simp only [endTokCount, loopTokCount, List.countP_cons, hiso.1, hiso.2,
            List.length_cons] at h4 ⊢
          simp at h4 ⊢
          omega
        · have hstep : convertStep ((count, body) :: (c2, b2) :: rest2, out) x =
              ((c2, b2 ++ List.flatten (List.replicate count body)) :: rest2, out) := by
            simp [convertStep, hc]
          rw [hstep]
          have h4 := hlen ((c2, b2 ++ List.flatten (List.replicate count body)) :: rest2) out (by simp)
          simp only [endTokCount, loopTokCount, List.countP_cons, hiso.1, hiso.2,
            List.length_cons] at h4 ⊢
          simp at h4 ⊢
          omega
    · have hiso : isLoopTok x = false ∧ isEndTok x = false := by
        simp [isLoopTok, isEndTok, hc]
      have H2 : ∀ j ≤ rest.length, endTokCount (rest.take j) ≤ σ.length + loopTokCount (rest.take j) := by
        intro j hj
        have h3 := H (j + 1) (by simp; omega)
        simp only [List.take_succ_cons, endTokCount, loopTokCount, List.countP_cons,
          hiso.1, hiso.2] at h3 ⊢
        simp at h3
        omega
      rcases σ with _ | ⟨⟨c, b⟩, rest2⟩
      · have hstep : convertStep ([], out) x = ([], push_line out line) := by
          simp [convertStep, hc]
        rw [hstep]
        have h4 := ih [] (push_line out line) H2
        simp only [endTokCount, loopTokCount, List.countP_cons, hiso.1, hiso.2] at h4 ⊢
        simp at h4 ⊢
        omega
      · have hstep : convertStep ((c, b) :: rest2, out) x =
            ((c, push_line b line) :: rest2, out) := by
          simp [convertStep, hc]
        rw [hstep]
        have H2b : ∀ j ≤ rest.length, endTokCount (rest.take j) ≤
            ((c, push_line b line) :: rest2).length + loopTokCount (rest.take j) := by
          intro j hj
          have h3 := H2 j hj
          simpa using h3
        have h4 := ih ((c, push_line b line) :: rest2) out H2b
        simp only [endTokCount, loopTokCount, List.countP_cons, hiso.1, hiso.2,
          List.length_cons] at h4 ⊢
        simp at h4 ⊢
        omega

/-- Frame simulation: while a prefix condition guarantees the base frame is
never popped, running lines above a base frame `(n, b)` collects into `b`
exactly what the same run from an empty stack would emit as output, and the
real output is untouched. -/
theorem convert_sim : ∀ (xs : List PyStr) (σ : List (Nat × List PyStr)) (n : Nat)
    (b : List PyStr) (st : List (Nat × List PyStr)) (out : List PyStr),
    (∀ j ≤ xs.length, endTokCount (xs.take j) ≤ σ.length + loopTokCount (xs.take j)) →
    xs.foldl convertStep (σ ++ (n, b) :: st, out) =
      ((xs.foldl convertStep (σ, [])).1 ++
        (n, b ++ (xs.foldl convertStep (σ, [])).2) :: st, out) := by
  intro xs
  induction xs with
  | nil => intro σ n b st out _; simp
  | cons x rest ih =>
    intro σ n b st out H
    rw [List.foldl_cons, List.foldl_cons]
    rcases hc : classify x with _ | m | _ | line
    · have hiso : isLoopTok x = false ∧ isEndTok x = false := by
        simp [isLoopTok, isEndTok, hc]
      have H2 : ∀ j ≤ rest.length, endTokCount (rest.take j) ≤ σ.length + loopTokCount (rest.take j) := by
        intro j hj
        have h3 := H (j + 1) (by simp; omega)
        simp only [List.take_succ_cons, endTokCount, loopTokCount, List.countP_cons,
          hiso.1, hiso.2] at h3 ⊢
        simp at h3
        omega
      have h1 : convertStep (σ ++ (n, b) :: st, out) x = (σ ++ (n, b) :: st, out) := by
        simp [convertStep, hc]
      have h2 : convertStep (σ, []) x = (σ, []) := by simp [convertStep, hc]
      rw [h1, h2]
      exact ih σ n b st out H2
    · have hiso : isLoopTok x = true ∧ isEndTok x = false := by
        simp [isLoopTok, isEndTok, hc]
      have H2 : ∀ j ≤ rest.length,
          endTokCount (rest.take j) ≤ ((m, []) :: σ).length + loopTokCount (rest.take j) := by
        intro j hj
        have h3 := H (j + 1) (by simp; omega)
        simp only [List.take_succ_cons, endTokCount, loopTokCount, List.countP_cons,
          hiso.1, hiso.2, List.length_cons] at h3 ⊢
        simp at h3 ⊢
        omega
      have h1 : convertStep (σ ++ (n, b) :: st, out) x =
          (((m, []) :: σ) ++ (n, b) :: st, out) := by
        simp [convertStep, hc]
      have h2 : convertStep (σ, []) x = ((m, []) :: σ, []) := by simp [convertStep, hc]
      rw [h1, h2]
      exact ih ((m, []) :: σ) n b st out H2
    · have hiso : isLoopTok x = false ∧ isEndTok x = true := by
        simp [isLoopTok, isEndTok, hc]
      have hσ : 1 ≤ σ.length := by
        have h3 := H 1 (by simp)
        simp only [List.take_succ_cons, List.take_zero, endTokCount, loopTokCount,
          List.countP_cons, List.countP_nil, hiso.1, hiso.2] at h3
        simp at h3
        omega
      rcases σ with _ | ⟨⟨count, body⟩, σ2⟩
      · simp at hσ
      · have H2 : ∀ j ≤ rest.length,
            endTokCount (rest.take j) ≤ σ2.length + loopTokCount (rest.take j) := by
          intro j hj
          have h3 := H (j + 1) (by simp; omega)
          simp only [List.take_succ_cons, endTokCount, loopTokCount, List.countP_cons,
            hiso.1, hiso.2, List.length_cons] at h3 ⊢
          simp at h3 ⊢
          omega
        rcases σ2 with _ | ⟨⟨c2, b2⟩, rest2⟩
        · have h1 : convertStep (((count, body) :: []) ++ (n, b) :: st, out) x =
              ((n, b ++ List.flatten (List.replicate count body)) :: st, out) := by
            simp [convertStep, hc]
          have h2 : convertStep ((count, body) :: [], []) x =
              ([], List.flatten (List.replicate count body)) := by
            simp [convertStep, hc]
          rw [h1, h2]
          have h4 := ih [] n (b ++ List.flatten (List.replicate count body)) st out H2
          rw [show ([] : List (Nat × List PyStr)) ++
            (n, b ++ List.flatten (List.replicate count body)) :: st =
            (n, b ++ List.flatten (List.replicate count body)) :: st from rfl] at h4
          rw [h4]
          rw [foldl_convert_out rest [] (List.flatten (List.replicate count body))]
          simp [List.append_assoc]
        · have h1 : convertStep (((count, body) :: (c2, b2) :: rest2) ++ (n, b) :: st, out) x =
              (((c2, b2 ++ List.flatten (List.replicate count body)) :: rest2) ++ (n, b) :: st, out) := by
            simp [convertStep, hc]
          have h2 : convertStep ((count, body) :: (c2, b2) :: rest2, []) x =
              ((c2, b2 ++ List.flatten (List.replicate count body)) :: rest2, []) := by
            simp [convertStep, hc]
          rw [h1, h2]
          exact ih ((c2, b2 ++ List.flatten (List.replicate count body)) :: rest2) n b st out
            (by simpa using H2)
    · have hiso : isLoopTok x = false ∧ isEndTok x = false := by
        simp [isLoopTok, isEndTok, hc]
      have H2 : ∀ j ≤ rest.length, endTokCount (rest.take j) ≤ σ.length + loopTokCount (rest.take j) := by
        intro j hj
        have h3 := H (j + 1) (by simp; omega)
        simp only [List.take_succ_cons, endTokCount, loopTokCount, List.countP_cons,
          hiso.1, hiso.2] at h3 ⊢
        simp at h3
        omega
      rcases σ with _ | ⟨⟨c, bb⟩, σ2⟩
      · have h1 : convertStep (([] : List (Nat × List PyStr)) ++ (n, b) :: st, out) x =
            ((n, push_line b line) :: st, out) := by
          simp [convertStep, hc]
        have h2 : convertStep (([] : List (Nat × List PyStr)), []) x =
            ([], push_line [] line) := by
          simp [convertStep, hc]
        rw [h1, h2]
        have h4 := ih [] n (push_line b line) st out H2
        rw [show ([] : List (Nat × List PyStr)) ++ (n, push_line b line) :: st =
          (n, push_line b line) :: st from rfl] at h4
        rw [h4]
        rw [foldl_convert_out rest [] (push_line [] line)]
        rw [push_line_append b line]
        simp [List.append_assoc]
      · have h1 : convertStep (((c, bb) :: σ2) ++ (n, b) :: st, out) x =
            (((c, push_line bb line) :: σ2) ++ (n, b) :: st, out) := by
          simp [convertStep, hc]
        have h2 : convertStep ((c, bb) :: σ2, []) x = ((c, push_line bb line) :: σ2, []) := by
          simp [convertStep, hc]
        rw [h1, h2]
        exact ih ((c, push_line bb line) :: σ2) n b st out (by simpa using H2)

/-- A `loop N` header, a prefix-balanced body, and its `endloop` expand to
`N` copies of the body's own expansion (Python `body * count`). -/
theorem convert_loop_block (hl el : PyStr) (body : List PyStr) (n : Nat)
    (hhl : classify hl = LineClass.loopHeader n) (hel : classify el = LineClass.endloopTok)
    (hpre : ∀ j ≤ body.length, endTokCount (body.take j) ≤ loopTokCount (body.take j))
    (hbal : endTokCount body = loopTokCount body) :
    convert_to_arduino_commands (hl :: body ++ [el]) =
      List.flatten (List.replicate n (convert_to_arduino_commands body)) := by
  unfold convert_to_arduino_commands
  simp only [List.cons_append]
  rw [List.foldl_cons]
  have hstep : convertStep ([], []) hl = ([(n, [])], []) := by simp [convertStep, hhl]
  rw [hstep, List.foldl_append]
  have hsim := convert_sim body [] n [] [] [] (by intro j hj; simpa using hpre j hj)
  rw [show ([] : List (Nat × List PyStr)) ++ (n, ([] : List PyStr)) :: [] = [(n, [])] from rfl]
    at hsim
  rw [hsim]
  have hsz := convert_stack_size body [] [] (by intro j hj; simpa using hpre j hj)
  have h0 : (body.foldl convertStep (([] : List (Nat × List PyStr)), [])).1.length = 0 := by
    simp only [List.length_nil] at hsz
    unfold endTokCount loopTokCount at hsz hbal
    omega
  rw [List.length_eq_zero.mp h0]
  simp only [List.nil_append]
  have hfin : List.foldl convertStep
      ([(n, (body.foldl convertStep (([] : List (Nat × List PyStr)), [])).2)], []) [el] =
      ([], List.flatten (List.replicate n
        (body.foldl convertStep (([] : List (Nat × List PyStr)), [])).2)) := by
    simp [convertStep, hel]
  rw [hfin]

/-- C5: loop expansion by `convert_to_arduino_commands` is idempotent on
already-flat input, a `loop n` block contributes exactly `n * L` commands
where `L` is the length of the flattened body, and nesting multiplies the
repeat counts (`n * m * L` for a doubly nested body). -/
theorem c5_expander :
    (∀ lines : List PyStr,
      convert_to_arduino_commands (convert_to_arduino_commands lines) =
        convert_to_arduino_commands lines) ∧
    (∀ (hl el : PyStr) (body : List PyStr) (n : Nat),
      classify hl = LineClass.loopHeader n → classify el = LineClass.endloopTok →
      (∀ j ≤ body.length, endTokCount (body.take j) ≤ loopTokCount (body.take j)) →
      endTokCount body = loopTokCount body →
      convert_to_arduino_commands (hl :: body ++ [el]) =
        List.flatten (List.replicate n (convert_to_arduino_commands body)) ∧
      (convert_to_arduino_commands (hl :: body ++ [el])).length =
        n * (convert_to_arduino_commands body).length) ∧
    (∀ (hl hl2 el : PyStr) (body : List PyStr) (n m : Nat),
      classify hl = LineClass.loopHeader n → classify hl2 = LineClass.loopHeader m →
      classify el = LineClass.endloopTok →
      (∀ j ≤ body.length, endTokCount (body.take j) ≤ loopTokCount (body.take j)) →
      endTokCount body = loopTokCount body →
      (convert_to_arduino_commands (hl :: (hl2 :: body ++ [el]) ++ [el])).length =
        n * (m * (convert_to_arduino_commands body).length)) := by
  have hpart2 : ∀ (hl el : PyStr) (body : List PyStr) (n : Nat),
      classify hl = LineClass.loopHeader n → classify el = LineClass.endloopTok →
      (∀ j ≤ body.length, endTokCount (body.take j) ≤ loopTokCount (body.take j)) →
      endTokCount body = loopTokCount body →
      convert_to_arduino_commands (hl :: body ++ [el]) =
        List.flatten (List.replicate n (convert_to_arduino_commands body)) ∧
      (convert_to_arduino_commands (hl :: body ++ [el])).length =
        n * (convert_to_arduino_commands body).length := by
    intro hl el body n h1 h3 hpre hbal
    have heq := convert_loop_block hl el body n h1 h3 hpre hbal
    refine ⟨heq, ?_⟩
    rw [heq]
    simp [List.length_flatten, List.map_replicate, List.sum_replicate, smul_eq_mul]
  refine ⟨?_, hpart2, ?_⟩
  · intro lines
    have h := convert_flat_run (convert_to_arduino_commands lines) []
      (convert_all_flat lines)
    show ((convert_to_arduino_commands lines).foldl convertStep ([], [])).2 = _
    rw [h]
    simp
  · intro hl hl2 el body n m h1 h2 h3 hpre hbal
    have hisoL : isLoopTok hl2 = true ∧ isEndTok hl2 = false := by
      simp [isLoopTok, isEndTok, h2]
    have hisoE : isLoopTok el = false ∧ isEndTok el = true := by
      simp [isLoopTok, isEndTok, h3]
    have hpre2 : ∀ j ≤ (hl2 :: body ++ [el]).length,
        endTokCount ((hl2 :: body ++ [el]).take j) ≤
          loopTokCount ((hl2 :: body ++ [el]).take j) := by
      intro j hj
      cases j with
      | zero => simp [endTokCount, loopTokCount]
      | succ k =>
        simp only [List.cons_append]
        rw [List.take_succ_cons]
        simp only [endTokCount, loopTokCount, List.countP_cons, hisoL.1, hisoL.2]
        rw [List.take_append_eq_append_take]
        simp only [List.countP_append]
        have hb : List.countP isEndTok (body.take k) ≤ List.countP isLoopTok (body.take k) := by
          by_cases hk : k ≤ body.length
          · have := hpre k hk
            simpa [endTokCount, loopTokCount] using this
          · rw [List.take_of_length_le (by omega)]
            unfold endTokCount loopTokCount at hbal
            omega
        have hlen1 : List.countP isEndTok (List.take (k - body.length) [el]) ≤ 1 :=
          le_trans (List.countP_le_length _) (by simp [List.length_take])
        simp only [Bool.false_eq_true, if_false, if_true]
        omega
    have hbal2 : endTokCount (hl2 :: body ++ [el]) = loopTokCount (hl2 :: body ++ [el]) := by
      simp only [endTokCount, loopTokCount, List.countP_cons, List.countP_append,
        hisoL.1, hisoL.2, hisoE.1, hisoE.2]
      unfold endTokCount loopTokCount at hbal
      simp only [Bool.false_eq_true, if_false, if_true, List.countP_cons]
      simp [List.countP_cons, hisoE.1, hisoE.2]
      omega
    have ha := hpart2 hl el (hl2 :: body ++ [el]) n h1 h3 hpre2 hbal2
    have hb2 := hpart2 hl2 el body m h2 h3 hpre hbal
    rw [ha.2, hb2.2]

/-- Witness for C5: a concrete `loop 2` block and idempotence on its
expansion. -/
theorem c5_witness :
    convert_to_arduino_commands
        (("loop 2").data :: [("move x 1").data] ++ [("endloop").data]) =
      List.flatten (List.replicate 2 (convert_to_arduino_commands [("move x 1").data])) ∧
    (convert_to_arduino_commands
        (("loop 2").data :: [("move x 1").data] ++ [("endloop").data])).length =
      2 * (convert_to_arduino_commands [("move x 1").data]).length ∧
    convert_to_arduino_commands
        (convert_to_arduino_commands [("loop 2").data, ("move x 1").data, ("endloop").data]) =
      convert_to_arduino_commands [("loop 2").data, ("move x 1").data, ("endloop").data] := by
  have h2 := c5_expander.2.1 ("loop 2").data ("endloop").data [("move x 1").data] 2
    (by decide) (by decide) (by decide) (by decide)
  exact ⟨h2.1, h2.2, c5_expander.1 _⟩
